import Mathlib

/-
Verification of the infix-to-postfix converter in src/acyclomatic.c.

The program is a character-driven stack automaton.  Operands a-z are echoed
directly; pending operators are buffered on an explicit byte stack
(a malloc block of MAX_STACK_DEPTH cells).  Cell 0 holds a permanent 0
written by main; an open bracket pushes a 0 sentinel; pop leaves any 0 in
place, so sentinels absorb surplus flush pops.  All branching in the C
source is arithmetic (check_interval computes interval membership from the
sign bits of two differences, and convert dispatches through call_table on
an arithmetic sum of such checks).

The embedding below follows the source function by function.  The stack
block is a total function from Int to byte values together with the offset
of stack_top from stack_bottom; an access outside the block (which is
undefined behavior in C: it happens on unmatched brackets and on stack
overflow, since the source checks neither) is modelled by returning none,
and surfaces as the CResult.ub outcome of a conversion.
-/

set_option maxHeartbeats 4000000
set_option maxRecDepth 10000

namespace Acyclomatic

/-- A C string as the list of its character byte values; the terminating
NUL is implicit (the empty list, or an embedded 0 byte, classifies as end
of input exactly as in the source). -/
def strBytes (s : String) : List Nat := s.data.map Char.toNat

/-- The unsigned 32-bit value of a machine int, i.e. reduction modulo
2^32 = 4294967296.  The C program runs with sizeof(int) = 4. -/
def toU32 (x : Int) : Nat := (x % 4294967296).toNat

/-- The function check_interval from the source, bit for bit:

  return ~(((high - value) | (value - low)) >> (sizeof(int)*8 - 1)) & 1;

The arithmetic right shift of a 32-bit two's-complement value by 31
replicates the sign bit, i.e. gives (m >>> 31) * 0xFFFFFFFF on the
unsigned representation; the complement is xor with 0xFFFFFFFF. -/
def check_interval (value low high : Int) : Nat :=
  ((((toU32 (high - value) ||| toU32 (value - low)) >>> 31) * 4294967295) ^^^
      4294967295) &&& 1

/-- MAX_STACK_DEPTH from the source: the size of the malloc block. -/
def MAX_STACK_DEPTH : Int := 64

/-- The operator stack: mem j models the byte stack_bottom[j] of the
malloc block (valid j are 0 to 63), sp models stack_top - stack_bottom.
sp is an Int because pop0 can step below the block. -/
structure Stack where
  mem : Int → Nat
  sp : Int

/-- The stack as main initializes it: stack_top = stack_bottom and
*stack_top = 0.  malloc leaves cells 1 to 63 indeterminate, but the
automaton only ever reads a cell it has written or the bottom cell, so
modelling them as 0 is unobservable. -/
def stack_init : Stack := ⟨fun _ => 0, 0⟩

/-- Reading the byte at stack_top; none when stack_top is outside the
malloc block (undefined behavior in the C program). -/
def readMem (st : Stack) : Option Nat :=
  if 0 ≤ st.sp ∧ st.sp < MAX_STACK_DEPTH then some (st.mem st.sp) else none

/-- Writing the byte at stack_top; none when stack_top is outside the
malloc block (undefined behavior in the C program). -/
def writeMem (st : Stack) (c : Nat) : Option Stack :=
  if 0 ≤ st.sp ∧ st.sp < MAX_STACK_DEPTH then
    some ⟨fun j => if j = st.sp then c else st.mem j, st.sp⟩
  else none

/-- The function push from the source: ++(*stack_top); **stack_top = c;
The source performs no capacity check; pushing with sp = 63 writes one
byte past the malloc block, which the model reports as none. -/
def push (c : Nat) (st : Stack) : Option Stack :=
  writeMem ⟨st.mem, st.sp + 1⟩ c

/-- The function pop from the source: reads the top byte and moves the
pointer down by check_interval(c, 0, 0) ^ 1, i.e. leaves the pointer in
place exactly when the top byte is 0 (the bottom marker or a sentinel). -/
def pop (st : Stack) : Option (Nat × Stack) :=
  match readMem st with
  | none => none
  | some c => some (c, ⟨st.mem, st.sp - ((check_interval c 0 0 ^^^ 1 : Nat) : Int)⟩)

/-- The function pop_mul_div from the source: cond is 1 exactly for the
bytes of * (42) and / (47); the returned byte is c * cond and the pointer
moves down by cond. -/
def pop_mul_div (st : Stack) : Option (Nat × Stack) :=
  match readMem st with
  | none => none
  | some c =>
    some (c * (check_interval c 42 42 ||| check_interval c 47 47),
      ⟨st.mem, st.sp - ((check_interval c 42 42 ||| check_interval c 47 47 : Nat) : Int)⟩)

/-- The function pop0 from the source: moves the pointer down by
check_interval(top, 0, 0); on the bottom marker this steps below the
malloc block. -/
def pop0 (st : Stack) : Option Stack :=
  match readMem st with
  | none => none
  | some c => some ⟨st.mem, st.sp - ((check_interval c 0 0 : Nat) : Int)⟩

/-- ASCII_MAX from the source. -/
def ASCII_MAX : Int := 127

/-- The function print_symbol from the source: dispatches through
print_call_table on check_interval(c, 1, ASCII_MAX); index 0 is
print_nothing, index 1 is print_char.  The result is the list of bytes
emitted to the output stream. -/
def print_symbol (c : Nat) : List Nat :=
  match check_interval c 1 ASCII_MAX with
  | 0 => []
  | _ => [c]

/-- The stack effect and emissions of handle_add_sub from the source: two
pops each printed through print_symbol, then push of the current operator
byte.  The tail call convert(++str) is made by convert below. -/
def handle_add_sub (c : Nat) (st : Stack) : Option (List Nat × Stack) :=
  match pop st with
  | none => none
  | some (c1, st1) =>
    match pop st1 with
    | none => none
    | some (c2, st2) =>
      match push c st2 with
      | none => none
      | some st3 => some (print_symbol c1 ++ print_symbol c2, st3)

/-- The stack effect and emissions of handle_mul_div from the source: one
pop_mul_div printed through print_symbol, then push of the current
operator byte. -/
def handle_mul_div (c : Nat) (st : Stack) : Option (List Nat × Stack) :=
  match pop_mul_div st with
  | none => none
  | some (c1, st1) =>
    match push c st1 with
    | none => none
    | some st2 => some (print_symbol c1, st2)

/-- The stack effect of handle_open_bracket from the source: push the 0
sentinel that separates the bracketed scope. -/
def handle_open_bracket (st : Stack) : Option (List Nat × Stack) :=
  match push 0 st with
  | none => none
  | some st1 => some ([], st1)

/-- The stack effect and emissions of handle_close_bracket from the
source: two printed pops, then pop0 to remove the sentinel. -/
def handle_close_bracket (st : Stack) : Option (List Nat × Stack) :=
  match pop st with
  | none => none
  | some (c1, st1) =>
    match pop st1 with
    | none => none
    | some (c2, st2) =>
      match pop0 st2 with
      | none => none
      | some st3 => some (print_symbol c1 ++ print_symbol c2, st3)

/-- The stack effect and emissions of handle_end from the source: two
printed pops.  The trailing newline it prints is display plumbing and is
not part of the modelled postfix stream. -/
def handle_end (st : Stack) : Option (List Nat × Stack) :=
  match pop st with
  | none => none
  | some (c1, st1) =>
    match pop st1 with
    | none => none
    | some (c2, st2) => some (print_symbol c1 ++ print_symbol c2, st2)

/-- Outcome of a conversion.  ok is the handle_end path: out is the byte
stream emitted by handle_symbol and print_symbol, st the final stack.
err is the handle_error path (the source prints a generic error message);
out is what was emitted before the abort.  ub is an access outside the
stack block, undefined behavior in the C program; out is what was emitted
before it. -/
inductive CResult where
  | ok (out : List Nat) (st : Stack)
  | err (out : List Nat)
  | ub (out : List Nat)

/-- Prepend bytes that were already emitted to a later outcome. -/
def CResult.withOut (es : List Nat) : CResult → CResult
  | ok out st => ok (es ++ out) st
  | err out => err (es ++ out)
  | ub out => ub (es ++ out)

/-- Indexes in the global call_table, from the source. -/
def HANDLE_ERROR : Nat := 0

def HANDLE_END : Nat := 1

def HANDLE_SYMBOL : Nat := 2

def HANDLE_ADD_SUB : Nat := 3

def HANDLE_MUL_DIV : Nat := 4

def HANDLE_OPEN_BRKT : Nat := 5

def HANDLE_CLOSE_BRKT : Nat := 6

/-- The dispatch index computed by convert in the source: the arithmetic
sum of mutually exclusive interval checks on the current character
(0 is NUL; 97 to 122 are a-z; 43 is +; 45 is -; 42 is *; 47 is /;
40 is the open and 41 the close bracket). -/
def call_index (c : Nat) : Nat :=
  check_interval c 0 0 * HANDLE_END
    + check_interval c 97 122 * HANDLE_SYMBOL
    + check_interval c 43 43 * HANDLE_ADD_SUB
    + check_interval c 45 45 * HANDLE_ADD_SUB
    + check_interval c 42 42 * HANDLE_MUL_DIV
    + check_interval c 47 47 * HANDLE_MUL_DIV
    + check_interval c 40 40 * HANDLE_OPEN_BRKT
    + check_interval c 41 41 * HANDLE_CLOSE_BRKT

/-- The recursive conversion routine convert from the source.  The empty
list is the NUL terminator (call_index 0 = HANDLE_END, the index 1 arm).
handle_symbol emits the operand byte and recurses; the operator and
bracket handlers apply their stack effect and recurse; index 0 is
handle_error, which aborts.  A dispatch index outside the 7-entry
call_table would also be undefined behavior (the classifier theorem below
shows it cannot occur for byte input). -/
def convert : List Nat → Stack → CResult
  | [], st =>
    match handle_end st with
    | some (out, st1) => CResult.ok out st1
    | none => CResult.ub []
  | c :: rest, st =>
    match call_index c with
    | 0 => CResult.err []
    | 1 =>
      (match handle_end st with
       | some (out, st1) => CResult.ok out st1
       | none => CResult.ub [])
    | 2 => (convert rest st).withOut [c]
    | 3 =>
      (match handle_add_sub c st with
       | some (out, st1) => (convert rest st1).withOut out
       | none => CResult.ub [])
    | 4 =>
      (match handle_mul_div c st with
       | some (out, st1) => (convert rest st1).withOut out
       | none => CResult.ub [])
    | 5 =>
      (match handle_open_bracket st with
       | some (out, st1) => (convert rest st1).withOut out
       | none => CResult.ub [])
    | 6 =>
      (match handle_close_bracket st with
       | some (out, st1) => (convert rest st1).withOut out
       | none => CResult.ub [])
    | _ => CResult.ub []

/-- The stack states at entry to each recursive call of convert: the same
recursion as convert, instrumented to record the operator stack at every
step of the walk. -/
def convert_trace : List Nat → Stack → List Stack
  | [], st => [st]
  | c :: rest, st =>
    st ::
      (match call_index c with
       | 2 => convert_trace rest st
       | 3 =>
         (match handle_add_sub c st with
          | some (_, st1) => convert_trace rest st1
          | none => [])
       | 4 =>
         (match handle_mul_div c st with
          | some (_, st1) => convert_trace rest st1
          | none => [])
       | 5 =>
         (match handle_open_bracket st with
          | some (_, st1) => convert_trace rest st1
          | none => [])
       | 6 =>
         (match handle_close_bracket st with
          | some (_, st1) => convert_trace rest st1
          | none => [])
       | _ => [])

/-- The emitted postfix stream of a successful conversion. -/
def postfixOut : CResult → Option (List Nat)
  | .ok out _ => some out
  | _ => none

/-- The bytes emitted up to whatever end the conversion reached. -/
def outOf : CResult → List Nat
  | .ok out _ => out
  | .err out => out
  | .ub out => out

/-- Whether the conversion aborted on handle_error. -/
def isErr : CResult → Bool
  | .err _ => true
  | _ => false

/-- Whether the conversion ran into an out-of-bounds stack access. -/
def isUB : CResult → Bool
  | .ub _ => true
  | _ => false

/-- The final stack contents of a successful conversion, top first (see
stackBytes below). -/
def dumpStack (mem : Int → Nat) : Int → Nat → List Nat
  | _, 0 => []
  | sp, n + 1 => mem sp :: dumpStack mem (sp - 1) n

/-- The live bytes of the stack, top first, down to and including cell 0. -/
def stackBytes (st : Stack) : List Nat :=
  dumpStack st.mem st.sp (st.sp.toNat + 1)

/-- The final stack (top first) of a successful conversion. -/
def finalStack : CResult → Option (List Nat)
  | .ok _ st => some (stackBytes st)
  | _ => none

/-- Whether a byte is a lowercase operand letter. -/
def isOperandB (c : Nat) : Bool := 97 ≤ c && c ≤ 122

/-- Whether a byte is an additive operator, + or -. -/
def isAdd (c : Nat) : Bool := c == 43 || c == 45

/-- Whether a byte is a multiplicative operator, * or /. -/
def isMul (c : Nat) : Bool := c == 42 || c == 47

/-- Whether a byte belongs to the input alphabet of the converter:
operands, the four operators, and the two brackets. -/
def validByte (c : Nat) : Bool :=
  isOperandB c || isAdd c || isMul c || c == 40 || c == 41

/-- Whether a byte can sit in a stack cell during a conversion: the 0
bottom marker or sentinel, or one of the four operator bytes. -/
def stackByteOK (c : Nat) : Bool := c == 0 || isAdd c || isMul c

/-- All valid cells of the stack block hold bottom-marker, sentinel or
operator bytes. -/
def MemOK (st : Stack) : Prop :=
  ∀ j : Int, 0 ≤ j → j < 64 → stackByteOK (st.mem j) = true

/-- Bracket balance check: every prefix closes at most as many brackets
as it opens (relative to the starting depth d), and the whole input
returns to depth 0. -/
def balAux : List Nat → Nat → Bool
  | [], d => d == 0
  | b :: rest, d =>
    if b == 40 then balAux rest (d + 1)
    else if b == 41 then d != 0 && balAux rest (d - 1)
    else balAux rest d

/-- Whether the brackets of an input are balanced. -/
def balancedB (bs : List Nat) : Bool := balAux bs 0

/-- A bracket scope of the operator stack, as the spec describes it: at
most two pending operators; when there are two, the upper one is
multiplicative and the lower one additive. -/
inductive Scope where
  | scNone
  | scOne (x : Nat)
  | scTwo (m a : Nat)

/-- Well-formedness of a scope: a single pending operator is any of the
four; with two pending, the upper is * or / and the lower + or -. -/
def scWF : Scope → Bool
  | .scNone => true
  | .scOne x => isAdd x || isMul x
  | .scTwo m a => isMul m && isAdd a

/-- The bytes of one scope, top first. -/
def encScope : Scope → List Nat
  | .scNone => []
  | .scOne x => [x]
  | .scTwo m a => [m, a]

/-- The bytes of a stack made of the given scopes (innermost first), top
first: each scope is followed by the 0 below it (its sentinel, or the
bottom marker for the outermost scope). -/
def encScopes : List Scope → List Nat
  | [] => []
  | s :: rest => encScope s ++ 0 :: encScopes rest

/-- Scanner for the scope-shape invariant over the stack bytes (top
first).  State 0: at the top of a scope; state 1: passed one
multiplicative operator; state 2: passed the additive operator (at most
one, lowest in its scope).  Any 0 byte closes the current scope. -/
def scopesOKAux : Nat → List Nat → Bool
  | _, [] => true
  | s, b :: rest =>
    if b == 0 then scopesOKAux 0 rest
    else if s == 0 && isMul b then scopesOKAux 1 rest
    else if (s == 0 || s == 1) && isAdd b then scopesOKAux 2 rest
    else false

/-- The scope invariant of the claimed spec: the stack pointer is inside
the block, the bottom marker is intact, and within every bracket scope at
most one multiplicative operator sits above at most one additive one. -/
def ScopeInv (st : Stack) : Prop :=
  0 ≤ st.sp ∧ st.sp < 64 ∧ st.mem 0 = 0 ∧
    scopesOKAux 0 (stackBytes st) = true

/-- The category table of the spec for the classifier: the unique
call_table index each character must dispatch to. -/
def classifier_spec (c : Nat) : Nat :=
  if c = 0 then HANDLE_END
  else if 97 ≤ c ∧ c ≤ 122 then HANDLE_SYMBOL
  else if c = 43 ∨ c = 45 then HANDLE_ADD_SUB
  else if c = 42 ∨ c = 47 then HANDLE_MUL_DIV
  else if c = 40 then HANDLE_OPEN_BRKT
  else if c = 41 then HANDLE_CLOSE_BRKT
  else HANDLE_ERROR

/-- An input whose bracket nesting exceeds the 64-cell stack block:
64 open brackets, an operand, 64 close brackets (balanced, and built only
from alphabet bytes). -/
def deep_input : List Nat :=
  List.replicate 64 40 ++ 97 :: List.replicate 64 41

/-! Theorems.  First the bit-level characterization of check_interval,
then the classifier, then the concrete scenario evaluations, then the
stack lemmas and the two inductive properties. -/

theorem lor_shiftRight (a b n : Nat) :
    (a ||| b) >>> n = (a >>> n) ||| (b >>> n) := by
  apply Nat.eq_of_testBit_eq
  intro i
  simp [Nat.testBit_shiftRight, Nat.testBit_lor]

theorem toU32_shift_of_nonneg (d : Int) (h0 : 0 ≤ d) (h1 : d < 2147483648) :
    toU32 d >>> 31 = 0 := by
  unfold toU32
  have h2 : (2 : Nat) ^ 31 = 2147483648 := by norm_num
  rw [Nat.shiftRight_eq_div_pow, h2]
  omega

theorem toU32_shift_of_neg (d : Int) (h0 : -2147483648 ≤ d) (h1 : d < 0) :
    toU32 d >>> 31 = 1 := by
  unfold toU32
  have h2 : (2 : Nat) ^ 31 = 2147483648 := by norm_num
  rw [Nat.shiftRight_eq_div_pow, h2]
  omega

/-- Workhorse characterization of check_interval: in the absence of
overflow in the two subtractions it decides interval membership. -/
theorem check_interval_spec (value low high : Int)
    (h1 : -2147483648 ≤ high - value) (h2 : high - value < 2147483648)
    (h3 : -2147483648 ≤ value - low) (h4 : value - low < 2147483648) :
    check_interval value low high = if low ≤ value ∧ value ≤ high then 1 else 0 := by
  unfold check_interval
  rw [lor_shiftRight]
  rcases Int.lt_or_le (high - value) 0 with hv | hv
  · rw [toU32_shift_of_neg _ h1 hv]
    rcases Int.lt_or_le (value - low) 0 with hl | hl
    · rw [toU32_shift_of_neg _ h3 hl, if_neg (by omega)]
      decide
    · rw [toU32_shift_of_nonneg _ hl h4, if_neg (by omega)]
      decide
  · rw [toU32_shift_of_nonneg _ hv h2]
    rcases Int.lt_or_le (value - low) 0 with hl | hl
    · rw [toU32_shift_of_neg _ h3 hl, if_neg (by omega)]
      decide
    · rw [toU32_shift_of_nonneg _ hl h4, if_pos (by omega)]
      decide

/-- check_interval on natural arguments below 2^31, with the interval
condition stated over Nat. -/
theorem check_interval_byte (v l h : Nat) (hv : v < 2147483648)
    (hl : l < 2147483648) (hh : h < 2147483648) :
    check_interval v l h = if l ≤ v ∧ v ≤ h then 1 else 0 := by
  rw [check_interval_spec v l h (by omega) (by omega) (by omega) (by omega)]
  split_ifs with hA hB <;> omega

/-- check_interval against a single point, on small natural arguments. -/
theorem check_interval_pt (v p : Nat) (hv : v < 2147483648)
    (hp : p < 2147483648) :
    check_interval v p p = if v = p then 1 else 0 := by
  rw [check_interval_byte v p p hv hp hp]
  split_ifs with hA hB <;> omega

/-- The dispatch index of every byte equals the index demanded by the
category table of the spec.  Helper for the classifier claim and the
inductions. -/
theorem call_index_byte : ∀ c : Fin 256, call_index c.val = classifier_spec c.val := by
  decide

/-- C10: for all integer arguments such that the subtractions high - value
and value - low do not overflow a 32-bit machine int, check_interval
returns 1 when low <= value <= high and 0 otherwise. -/
theorem check_interval_correct (value low high : Int)
    (h1 : -2147483648 ≤ high - value) (h2 : high - value < 2147483648)
    (h3 : -2147483648 ≤ value - low) (h4 : value - low < 2147483648) :
    check_interval value low high = if low ≤ value ∧ value ≤ high then 1 else 0 :=
  check_interval_spec value low high h1 h2 h3 h4

theorem check_interval_correct_witness :
    check_interval 5 3 7 = 1 ∧ check_interval 99 100 120 = 0 := by
  constructor
  · have h := check_interval_correct 5 3 7 (by norm_num) (by norm_num)
      (by norm_num) (by norm_num)
    rw [if_pos (by norm_num)] at h
    exact h
  · have h := check_interval_correct 99 100 120 (by norm_num) (by norm_num)
      (by norm_num) (by norm_num)
    rw [if_neg (by norm_num)] at h
    exact h

/-- check_interval against the point 0, on small arguments: this is the
check pop and pop0 perform on the top byte. -/
theorem ci_0 (c : Nat) (hc : c < 2147483648) :
    check_interval c 0 0 = if c = 0 then 1 else 0 := by
  rw [check_interval_spec _ _ _ (by omega) (by omega) (by omega) (by omega)]
  split_ifs with hA hB <;> omega

/-- check_interval against the point 42 (the byte of *). -/
theorem ci_42 (c : Nat) (hc : c < 2147483648) :
    check_interval c 42 42 = if c = 42 then 1 else 0 := by
  rw [check_interval_spec _ _ _ (by omega) (by omega) (by omega) (by omega)]
  split_ifs with hA hB <;> omega

/-- check_interval against the point 47 (the byte of /). -/
theorem ci_47 (c : Nat) (hc : c < 2147483648) :
    check_interval c 47 47 = if c = 47 then 1 else 0 := by
  rw [check_interval_spec _ _ _ (by omega) (by omega) (by omega) (by omega)]
  split_ifs with hA hB <;> omega

/-- The printability check of print_symbol, on byte arguments. -/
theorem ci_print (c : Nat) (hc : c < 128) :
    check_interval c 1 ASCII_MAX = if 1 ≤ c then 1 else 0 := by
  unfold ASCII_MAX
  rw [check_interval_spec _ _ _ (by omega) (by omega) (by omega) (by omega)]
  split_ifs with hA hB <;> omega

/-- print_symbol suppresses the empty pop result and popped sentinels. -/
theorem print_symbol_zero : print_symbol 0 = [] := rfl

/-- print_symbol emits any printable byte, in particular operators. -/
theorem print_symbol_op (c : Nat) (h1 : 1 ≤ c) (h2 : c < 128) :
    print_symbol c = [c] := by
  unfold print_symbol
  rw [ci_print c h2, if_pos h1]

/-- One unfolding step of dumpStack. -/
theorem dumpStack_succ (mem : Int → Nat) (sp : Int) (n : Nat) :
    dumpStack mem sp (n + 1) = mem sp :: dumpStack mem (sp - 1) n := rfl

theorem dumpStack_length (mem : Int → Nat) :
    ∀ (n : Nat) (sp : Int), (dumpStack mem sp n).length = n := by
  intro n
  induction n with
  | zero => intro sp; rfl
  | succ n ih =>
    intro sp
    rw [dumpStack_succ, List.length_cons, ih]

/-- Updating a cell above the live region does not change the dump. -/
theorem dumpStack_update_gt (mem : Int → Nat) (k : Int) (c : Nat) :
    ∀ (n : Nat) (sp : Int), sp < k →
      dumpStack (fun j => if j = k then c else mem j) sp n = dumpStack mem sp n := by
  intro n
  induction n with
  | zero => intro sp _; rfl
  | succ n ih =>
    intro sp h
    rw [dumpStack_succ, dumpStack_succ]
    show (if sp = k then c else mem sp) :: _ = _
    rw [if_neg (by omega), ih (sp - 1) (by omega)]

theorem stackBytes_length (st : Stack) :
    (stackBytes st).length = st.sp.toNat + 1 :=
  dumpStack_length st.mem (st.sp.toNat + 1) st.sp

/-- readMem inside the block. -/
theorem readMem_of (st : Stack) (h0 : 0 ≤ st.sp) (h1 : st.sp < 64) :
    readMem st = some (st.mem st.sp) := by
  unfold readMem MAX_STACK_DEPTH
  rw [if_pos ⟨h0, h1⟩]

/-- The top byte of the stack is the head of stackBytes. -/
theorem readMem_head (st : Stack) (c : Nat) (t : List Nat)
    (h0 : 0 ≤ st.sp) (h1 : st.sp < 64) (hB : stackBytes st = c :: t) :
    readMem st = some c := by
  rw [readMem_of st h0 h1]
  unfold stackBytes at hB
  rw [show st.sp.toNat + 1 = st.sp.toNat + 1 from rfl, dumpStack_succ] at hB
  injection hB with h2 h3
  rw [h2]

/-- Stepping the pointer down removes the head of stackBytes. -/
theorem stackBytes_tail (st : Stack) (c : Nat) (t : List Nat)
    (h1 : 1 ≤ st.sp) (hB : stackBytes st = c :: t) :
    stackBytes ⟨st.mem, st.sp - 1⟩ = t := by
  unfold stackBytes at hB ⊢
  rw [dumpStack_succ] at hB
  injection hB with h2 h3
  rw [show (st.sp - 1).toNat + 1 = st.sp.toNat from by omega]
  exact h3

/-- The four operators are the bytes 42, 43, 45, 47. -/
theorem isMul_cases (c : Nat) (h : isMul c = true) : c = 42 ∨ c = 47 := by
  simpa [isMul] using h

theorem isAdd_cases (c : Nat) (h : isAdd c = true) : c = 43 ∨ c = 45 := by
  simpa [isAdd] using h

/-- pop on a sentinel or the bottom marker: the entry is not removed and
the returned byte is the unprintable 0; repeated pops are no-ops. -/
theorem pop_sentinel (st : Stack) (c : Nat) (h : readMem st = some c)
    (hc : c = 0) : pop st = some (0, st) := by
  simp only [pop, h, Option.some_bind]
  rw [ci_0 c (by omega), if_pos hc, hc]
  norm_num

/-- pop on a nonzero byte removes it. -/
theorem pop_op (st : Stack) (c : Nat) (h : readMem st = some c)
    (hc0 : c ≠ 0) (hc : c < 128) :
    pop st = some (c, ⟨st.mem, st.sp - 1⟩) := by
  simp only [pop, h, Option.some_bind]
  rw [ci_0 c (by omega), if_neg hc0]
  norm_num

/-- pop_mul_div removes and returns a multiplicative top byte. -/
theorem pop_mul_div_hit (st : Stack) (c : Nat) (h : readMem st = some c)
    (hc : isMul c = true) :
    pop_mul_div st = some (c, ⟨st.mem, st.sp - 1⟩) := by
  have h42 := isMul_cases c hc
  have hlt : c < 128 := by omega
  simp only [pop_mul_div, h, Option.some_bind]
  rw [ci_42 c (by omega), ci_47 c (by omega)]
  rcases h42 with h' | h'
  · rw [if_pos h', if_neg (by omega)]
    norm_num
  · rw [if_neg (by omega), if_pos h']
    norm_num

/-- pop_mul_div on anything else: the stack is left completely unchanged
and the returned byte is the unprintable 0. -/
theorem pop_mul_div_miss (st : Stack) (c : Nat) (h : readMem st = some c)
    (h42 : c ≠ 42) (h47 : c ≠ 47) (hc : c < 128) :
    pop_mul_div st = some (0, st) := by
  simp only [pop_mul_div, h, Option.some_bind]
  rw [ci_42 c (by omega), ci_47 c (by omega), if_neg h42, if_neg h47]
  norm_num

/-- pop0 on a 0 top byte steps the pointer down past it. -/
theorem pop0_zero (st : Stack) (c : Nat) (h : readMem st = some c)
    (hc : c = 0) : pop0 st = some ⟨st.mem, st.sp - 1⟩ := by
  simp only [pop0, h, Option.some_bind]
  rw [ci_0 c (by omega), if_pos hc]
  norm_num

/-- push inside the block: the written cell and the new pointer. -/
theorem push_ok (c : Nat) (st : Stack) (h0 : 0 ≤ st.sp + 1) (h1 : st.sp + 1 < 64) :
    push c st = some ⟨fun j => if j = st.sp + 1 then c else st.mem j, st.sp + 1⟩ := by
  unfold push writeMem MAX_STACK_DEPTH
  rw [if_pos ⟨h0, h1⟩]

/-- push one past the block (the unchecked overflow of the source). -/
theorem push_fail (c : Nat) (st : Stack) (h : 63 ≤ st.sp) :
    push c st = none := by
  unfold push writeMem MAX_STACK_DEPTH
  dsimp only
  rw [if_neg (by omega)]

/-- stackBytes after a successful push: the new byte on top. -/
theorem stackBytes_push (c : Nat) (st : Stack) (h0 : 0 ≤ st.sp) :
    stackBytes ⟨fun j => if j = st.sp + 1 then c else st.mem j, st.sp + 1⟩
      = c :: stackBytes st := by
  unfold stackBytes
  rw [show (st.sp + 1).toNat + 1 = (st.sp.toNat + 1) + 1 from by omega, dumpStack_succ]
  rw [show st.sp + 1 - 1 = st.sp from by omega]
  rw [dumpStack_update_gt st.mem (st.sp + 1) c (st.sp.toNat + 1) st.sp (by omega)]
  show (if st.sp + 1 = st.sp + 1 then c else _) :: _ = _
  rw [if_pos rfl]

/-- Any operator byte is printable and below 128. -/
theorem op_byte_facts (x : Nat) (h : (isAdd x || isMul x) = true) :
    1 ≤ x ∧ x < 128 := by
  have h' : isAdd x = true ∨ isMul x = true := by
    cases hA : isAdd x
    · right
      simpa [hA] using h
    · left
      rfl
  rcases h' with h' | h'
  · rcases isAdd_cases x h' with rfl | rfl <;> norm_num
  · rcases isMul_cases x h' with rfl | rfl <;> norm_num

/-- The stack pointer is determined by the length of stackBytes. -/
theorem sp_bound_of_bytes (st : Stack) (l : List Nat)
    (hB : stackBytes st = l) : st.sp.toNat + 1 = l.length := by
  rw [← hB, stackBytes_length]

theorem one_le_sp_of_bytes (st : Stack) (c : Nat) (t : List Nat)
    (hB : stackBytes st = c :: t) (ht : t ≠ []) : 1 ≤ st.sp := by
  have h := stackBytes_length st
  rw [hB] at h
  cases t with
  | nil => exact absurd rfl ht
  | cons b t2 =>
    simp only [List.length_cons] at h
    omega

theorem encScopes_ne_nil (rest : List Scope) (h : rest ≠ []) :
    encScopes rest ≠ [] := by
  cases rest with
  | nil => exact absurd rfl h
  | cons s r => cases s <;> simp [encScopes, encScope]

/-- handle_add_sub over an empty scope: both pops meet the 0 below (a
sentinel or the bottom marker), remove nothing and emit nothing, and the
operator is pushed; with the pointer on the last cell the unchecked push
instead leaves the block. -/
theorem handle_add_sub_scNone (c : Nat) (st : Stack) (rest : List Scope)
    (h0 : 0 ≤ st.sp) (h1 : st.sp < 64)
    (hB : stackBytes st = encScopes (Scope.scNone :: rest)) :
    (63 ≤ st.sp → handle_add_sub c st = none) ∧
    (st.sp < 63 → ∃ st', handle_add_sub c st = some ([], st') ∧
      stackBytes st' = encScopes (Scope.scOne c :: rest) ∧
      0 ≤ st'.sp ∧ st'.sp < 64 ∧ st'.mem 0 = st.mem 0) := by
  have hBn : stackBytes st = 0 :: encScopes rest := by
    simpa [encScopes, encScope] using hB
  have hr : readMem st = some 0 := readMem_head st 0 _ h0 h1 hBn
  have hp := pop_sentinel st 0 hr rfl
  constructor
  · intro h63
    simp only [handle_add_sub, hp, push_fail c st h63]
  · intro h63
    refine ⟨⟨fun j => if j = st.sp + 1 then c else st.mem j, st.sp + 1⟩, ?_, ?_,
      show (0 : Int) ≤ st.sp + 1 from by omega,
      show st.sp + 1 < 64 from by omega, ?_⟩
    · simp only [handle_add_sub, hp, push_ok c st (by omega) (by omega)]
      rfl
    · rw [stackBytes_push c st h0, hBn]
      simp [encScopes, encScope]
    · dsimp only
      rw [if_neg (by omega)]

/-- handle_add_sub over a scope holding one operator: the operator is
popped and emitted, the second pop meets the 0 below and is a no-op, and
the new additive operator is pushed in its place. -/
theorem handle_add_sub_scOne (c x : Nat) (st : Stack) (rest : List Scope)
    (h0 : 0 ≤ st.sp) (h1 : st.sp < 64) (hx : (isAdd x || isMul x) = true)
    (hB : stackBytes st = encScopes (Scope.scOne x :: rest)) :
    ∃ st', handle_add_sub c st = some ([x], st') ∧
      stackBytes st' = encScopes (Scope.scOne c :: rest) ∧
      0 ≤ st'.sp ∧ st'.sp < 64 ∧ st'.mem 0 = st.mem 0 := by
  obtain ⟨hx1, hx2⟩ := op_byte_facts x hx
  have hBn : stackBytes st = x :: 0 :: encScopes rest := by
    simpa [encScopes, encScope] using hB
  have hsp : 1 ≤ st.sp := one_le_sp_of_bytes st x _ hBn (by simp)
  have hr : readMem st = some x := readMem_head st x _ h0 h1 hBn
  have hp1 := pop_op st x hr (by omega) hx2
  have hB1 : stackBytes ⟨st.mem, st.sp - 1⟩ = 0 :: encScopes rest :=
    stackBytes_tail st x _ hsp hBn
  have hr1 : readMem ⟨st.mem, st.sp - 1⟩ = some 0 :=
    readMem_head _ 0 _ (show (0 : Int) ≤ st.sp - 1 from by omega)
      (show st.sp - 1 < 64 from by omega) hB1
  have hp2 := pop_sentinel _ 0 hr1 rfl
  have hpush := push_ok c ⟨st.mem, st.sp - 1⟩
    (show (0 : Int) ≤ st.sp - 1 + 1 from by omega)
    (show st.sp - 1 + 1 < 64 from by omega)
  have hsimp : st.sp - 1 + 1 = st.sp := by omega
  refine ⟨⟨fun j => if j = st.sp then c else st.mem j, st.sp⟩, ?_, ?_, h0, h1, ?_⟩
  · simp only [handle_add_sub, hp1, hp2, hpush, hsimp,
      print_symbol_op x hx1 hx2]
    rfl
  · have hby := stackBytes_push c ⟨st.mem, st.sp - 1⟩
      (show (0 : Int) ≤ st.sp - 1 from by omega)
    rw [hB1] at hby
    simp only [hsimp] at hby
    rw [hby]
    simp [encScopes, encScope]
  · dsimp only
    rw [if_neg (by omega)]

/-- handle_add_sub over a full scope (a multiplicative operator above an
additive one): both are popped and emitted in order, and the new additive
operator is pushed onto the emptied scope. -/
theorem handle_add_sub_scTwo (c m a : Nat) (st : Stack) (rest : List Scope)
    (h0 : 0 ≤ st.sp) (h1 : st.sp < 64)
    (hm : isMul m = true) (ha : isAdd a = true)
    (hB : stackBytes st = encScopes (Scope.scTwo m a :: rest)) :
    ∃ st', handle_add_sub c st = some ([m, a], st') ∧
      stackBytes st' = encScopes (Scope.scOne c :: rest) ∧
      0 ≤ st'.sp ∧ st'.sp < 64 ∧ st'.mem 0 = st.mem 0 := by
  obtain ⟨hm1, hm2⟩ := op_byte_facts m (by rw [hm, Bool.or_true])
  obtain ⟨ha1, ha2⟩ := op_byte_facts a (by rw [ha, Bool.true_or])
  have hBn : stackBytes st = m :: a :: 0 :: encScopes rest := by
    simpa [encScopes, encScope] using hB
  have hlen := sp_bound_of_bytes st _ hBn
  simp only [List.length_cons] at hlen
  have hsp : 2 ≤ st.sp := by omega
  have hr : readMem st = some m := readMem_head st m _ h0 h1 hBn
  have hp1 := pop_op st m hr (by omega) hm2
  have hB1 : stackBytes ⟨st.mem, st.sp - 1⟩ = a :: 0 :: encScopes rest :=
    stackBytes_tail st m _ (by omega) hBn
  have hr1 : readMem ⟨st.mem, st.sp - 1⟩ = some a :=
    readMem_head _ a _ (show (0 : Int) ≤ st.sp - 1 from by omega)
      (show st.sp - 1 < 64 from by omega) hB1
  have hp2 := pop_op _ a hr1 (by omega) ha2
  have hB2 : stackBytes ⟨st.mem, st.sp - 1 - 1⟩ = 0 :: encScopes rest :=
    stackBytes_tail _ a _ (show (1 : Int) ≤ st.sp - 1 from by omega) hB1
  have hpush := push_ok c ⟨st.mem, st.sp - 1 - 1⟩
    (show (0 : Int) ≤ st.sp - 1 - 1 + 1 from by omega)
    (show st.sp - 1 - 1 + 1 < 64 from by omega)
  have hsimp : st.sp - 1 - 1 + 1 = st.sp - 1 := by omega
  refine ⟨⟨fun j => if j = st.sp - 1 then c else st.mem j, st.sp - 1⟩, ?_, ?_,
    show (0 : Int) ≤ st.sp - 1 from by omega,
    show st.sp - 1 < 64 from by omega, ?_⟩
  · simp only [handle_add_sub, hp1, hp2, hpush, hsimp,
      print_symbol_op m hm1 hm2, print_symbol_op a ha1 ha2]
    rfl
  · have hby := stackBytes_push c ⟨st.mem, st.sp - 1 - 1⟩
      (show (0 : Int) ≤ st.sp - 1 - 1 from by omega)
    rw [hB2] at hby
    simp only [hsimp] at hby
    rw [hby]
    simp [encScopes, encScope]
  · dsimp only
    rw [if_neg (by omega)]

/-- handle_mul_div over an empty scope: pop_mul_div meets the 0 below,
leaves the stack untouched and yields nothing to print; the new operator
is pushed (unchecked: on the last cell it leaves the block). -/
theorem handle_mul_div_scNone (c : Nat) (st : Stack) (rest : List Scope)
    (h0 : 0 ≤ st.sp) (h1 : st.sp < 64)
    (hB : stackBytes st = encScopes (Scope.scNone :: rest)) :
    (63 ≤ st.sp → handle_mul_div c st = none) ∧
    (st.sp < 63 → ∃ st', handle_mul_div c st = some ([], st') ∧
      stackBytes st' = encScopes (Scope.scOne c :: rest) ∧
      0 ≤ st'.sp ∧ st'.sp < 64 ∧ st'.mem 0 = st.mem 0) := by
  have hBn : stackBytes st = 0 :: encScopes rest := by
    simpa [encScopes, encScope] using hB
  have hr : readMem st = some 0 := readMem_head st 0 _ h0 h1 hBn
  have hp := pop_mul_div_miss st 0 hr (by omega) (by omega) (by omega)
  constructor
  · intro h63
    simp only [handle_mul_div, hp, push_fail c st h63]
  · intro h63
    refine ⟨⟨fun j => if j = st.sp + 1 then c else st.mem j, st.sp + 1⟩, ?_, ?_,
      show (0 : Int) ≤ st.sp + 1 from by omega,
      show st.sp + 1 < 64 from by omega, ?_⟩
    · simp only [handle_mul_div, hp, push_ok c st (by omega) (by omega)]
      rfl
    · rw [stackBytes_push c st h0, hBn]
      simp [encScopes, encScope]
    · dsimp only
      rw [if_neg (by omega)]

/-- handle_mul_div over a scope holding one additive operator: the
additive operator binds looser and is left untouched; the multiplicative
operator is pushed above it. -/
theorem handle_mul_div_scOne_add (c x : Nat) (st : Stack) (rest : List Scope)
    (h0 : 0 ≤ st.sp) (h1 : st.sp < 64) (ha : isAdd x = true)
    (hB : stackBytes st = encScopes (Scope.scOne x :: rest)) :
    (63 ≤ st.sp → handle_mul_div c st = none) ∧
    (st.sp < 63 → ∃ st', handle_mul_div c st = some ([], st') ∧
      stackBytes st' = encScopes (Scope.scTwo c x :: rest) ∧
      0 ≤ st'.sp ∧ st'.sp < 64 ∧ st'.mem 0 = st.mem 0) := by
  have hx45 := isAdd_cases x ha
  have hBn : stackBytes st = x :: 0 :: encScopes rest := by
    simpa [encScopes, encScope] using hB
  have hr : readMem st = some x := readMem_head st x _ h0 h1 hBn
  have hp := pop_mul_div_miss st x hr (by omega) (by omega) (by omega)
  constructor
  · intro h63
    simp only [handle_mul_div, hp, push_fail c st h63]
  · intro h63
    refine ⟨⟨fun j => if j = st.sp + 1 then c else st.mem j, st.sp + 1⟩, ?_, ?_,
      show (0 : Int) ≤ st.sp + 1 from by omega,
      show st.sp + 1 < 64 from by omega, ?_⟩
    · simp only [handle_mul_div, hp, push_ok c st (by omega) (by omega)]
      rfl
    · rw [stackBytes_push c st h0, hBn]
      simp [encScopes, encScope]
    · dsimp only
      rw [if_neg (by omega)]

/-- handle_mul_div over a scope holding one multiplicative operator: it
is popped and emitted, and the new operator is pushed in its place. -/
theorem handle_mul_div_scOne_mul (c x : Nat) (st : Stack) (rest : List Scope)
    (h0 : 0 ≤ st.sp) (h1 : st.sp < 64) (hm : isMul x = true)
    (hB : stackBytes st = encScopes (Scope.scOne x :: rest)) :
    ∃ st', handle_mul_div c st = some ([x], st') ∧
      stackBytes st' = encScopes (Scope.scOne c :: rest) ∧
      0 ≤ st'.sp ∧ st'.sp < 64 ∧ st'.mem 0 = st.mem 0 := by
  obtain ⟨hx1, hx2⟩ := op_byte_facts x (by rw [hm, Bool.or_true])
  have hBn : stackBytes st = x :: 0 :: encScopes rest := by
    simpa [encScopes, encScope] using hB
  have hsp : 1 ≤ st.sp := one_le_sp_of_bytes st x _ hBn (by simp)
  have hr : readMem st = some x := readMem_head st x _ h0 h1 hBn
  have hp := pop_mul_div_hit st x hr hm
  have hB1 : stackBytes ⟨st.mem, st.sp - 1⟩ = 0 :: encScopes rest :=
    stackBytes_tail st x _ hsp hBn
  have hpush := push_ok c ⟨st.mem, st.sp - 1⟩
    (show (0 : Int) ≤ st.sp - 1 + 1 from by omega)
    (show st.sp - 1 + 1 < 64 from by omega)
  have hsimp : st.sp - 1 + 1 = st.sp := by omega
  refine ⟨⟨fun j => if j = st.sp then c else st.mem j, st.sp⟩, ?_, ?_, h0, h1, ?_⟩
  · simp only [handle_mul_div, hp, hpush, hsimp, print_symbol_op x hx1 hx2]
  · have hby := stackBytes_push c ⟨st.mem, st.sp - 1⟩
      (show (0 : Int) ≤ st.sp - 1 from by omega)
    rw [hB1] at hby
    simp only [hsimp] at hby
    rw [hby]
    simp [encScopes, encScope]
  · dsimp only
    rw [if_neg (by omega)]

/-- handle_mul_div over a full scope: only the single multiplicative top
entry is popped and emitted; the additive operator beneath stays, and the
new multiplicative operator is pushed above it. -/
theorem handle_mul_div_scTwo (c m a : Nat) (st : Stack) (rest : List Scope)
    (h0 : 0 ≤ st.sp) (h1 : st.sp < 64)
    (hm : isMul m = true) (_ha : isAdd a = true)
    (hB : stackBytes st = encScopes (Scope.scTwo m a :: rest)) :
    ∃ st', handle_mul_div c st = some ([m], st') ∧
      stackBytes st' = encScopes (Scope.scTwo c a :: rest) ∧
      0 ≤ st'.sp ∧ st'.sp < 64 ∧ st'.mem 0 = st.mem 0 := by
  obtain ⟨hm1, hm2⟩ := op_byte_facts m (by rw [hm, Bool.or_true])
  have hBn : stackBytes st = m :: a :: 0 :: encScopes rest := by
    simpa [encScopes, encScope] using hB
  have hsp : 1 ≤ st.sp := one_le_sp_of_bytes st m _ hBn (by simp)
  have hr : readMem st = some m := readMem_head st m _ h0 h1 hBn
  have hp := pop_mul_div_hit st m hr hm
  have hB1 : stackBytes ⟨st.mem, st.sp - 1⟩ = a :: 0 :: encScopes rest :=
    stackBytes_tail st m _ hsp hBn
  have hpush := push_ok c ⟨st.mem, st.sp - 1⟩
    (show (0 : Int) ≤ st.sp - 1 + 1 from by omega)
    (show st.sp - 1 + 1 < 64 from by omega)
  have hsimp : st.sp - 1 + 1 = st.sp := by omega
  refine ⟨⟨fun j => if j = st.sp then c else st.mem j, st.sp⟩, ?_, ?_, h0, h1, ?_⟩
  · simp only [handle_mul_div, hp, hpush, hsimp, print_symbol_op m hm1 hm2]
  · have hby := stackBytes_push c ⟨st.mem, st.sp - 1⟩
      (show (0 : Int) ≤ st.sp - 1 from by omega)
    rw [hB1] at hby
    simp only [hsimp] at hby
    rw [hby]
    simp [encScopes, encScope]
  · dsimp only
    rw [if_neg (by omega)]

/-- handle_open_bracket: pushes the 0 sentinel that opens a fresh scope
(unchecked: on the last cell it leaves the block). -/
theorem handle_open_spec (st : Stack) (scopes : List Scope)
    (h0 : 0 ≤ st.sp) (h1 : st.sp < 64)
    (hB : stackBytes st = encScopes scopes) :
    (63 ≤ st.sp → handle_open_bracket st = none) ∧
    (st.sp < 63 → ∃ st', handle_open_bracket st = some ([], st') ∧
      stackBytes st' = encScopes (Scope.scNone :: scopes) ∧
      0 ≤ st'.sp ∧ st'.sp < 64 ∧ st'.mem 0 = st.mem 0) := by
  constructor
  · intro h63
    simp only [handle_open_bracket, push_fail 0 st h63]
  · intro h63
    refine ⟨⟨fun j => if j = st.sp + 1 then 0 else st.mem j, st.sp + 1⟩, ?_, ?_,
      show (0 : Int) ≤ st.sp + 1 from by omega,
      show st.sp + 1 < 64 from by omega, ?_⟩
    · simp only [handle_open_bracket, push_ok 0 st (by omega) (by omega)]
    · rw [stackBytes_push 0 st h0, hB]
      simp [encScopes, encScope]
    · dsimp only
      rw [if_neg (by omega)]

/-- handle_close_bracket over an empty scope: both flush pops are no-ops
on the sentinel, then pop0 removes the sentinel and re-exposes the
enclosing scope. -/
theorem handle_close_scNone (st : Stack) (rest : List Scope)
    (h0 : 0 ≤ st.sp) (h1 : st.sp < 64) (hrest : rest ≠ [])
    (hB : stackBytes st = encScopes (Scope.scNone :: rest)) :
    ∃ st', handle_close_bracket st = some ([], st') ∧
      stackBytes st' = encScopes rest ∧
      0 ≤ st'.sp ∧ st'.sp < 64 ∧ st'.mem 0 = st.mem 0 := by
  have hBn : stackBytes st = 0 :: encScopes rest := by
    simpa [encScopes, encScope] using hB
  have hsp : 1 ≤ st.sp :=
    one_le_sp_of_bytes st 0 _ hBn (encScopes_ne_nil rest hrest)
  have hr : readMem st = some 0 := readMem_head st 0 _ h0 h1 hBn
  have hp := pop_sentinel st 0 hr rfl
  have hp0 := pop0_zero st 0 hr rfl
  refine ⟨⟨st.mem, st.sp - 1⟩, ?_,
    stackBytes_tail st 0 _ hsp hBn,
    show (0 : Int) ≤ st.sp - 1 from by omega,
    show st.sp - 1 < 64 from by omega, rfl⟩
  simp only [handle_close_bracket, hp, hp0]
  rfl

/-- handle_close_bracket over a scope holding one operator: the operator
is popped and emitted, the second pop is a no-op on the sentinel, and
pop0 removes the sentinel. -/
theorem handle_close_scOne (x : Nat) (st : Stack) (rest : List Scope)
    (h0 : 0 ≤ st.sp) (h1 : st.sp < 64) (hx : (isAdd x || isMul x) = true)
    (hrest : rest ≠ [])
    (hB : stackBytes st = encScopes (Scope.scOne x :: rest)) :
    ∃ st', handle_close_bracket st = some ([x], st') ∧
      stackBytes st' = encScopes rest ∧
      0 ≤ st'.sp ∧ st'.sp < 64 ∧ st'.mem 0 = st.mem 0 := by
  obtain ⟨hx1, hx2⟩ := op_byte_facts x hx
  have hBn : stackBytes st = x :: 0 :: encScopes rest := by
    simpa [encScopes, encScope] using hB
  have hsp : 1 ≤ st.sp := one_le_sp_of_bytes st x _ hBn (by simp)
  have hr : readMem st = some x := readMem_head st x _ h0 h1 hBn
  have hp1 := pop_op st x hr (by omega) hx2
  have hB1 : stackBytes ⟨st.mem, st.sp - 1⟩ = 0 :: encScopes rest :=
    stackBytes_tail st x _ hsp hBn
  have hsp2 : (1 : Int) ≤ st.sp - 1 :=
    one_le_sp_of_bytes _ 0 _ hB1 (encScopes_ne_nil rest hrest)
  have hr1 : readMem ⟨st.mem, st.sp - 1⟩ = some 0 :=
    readMem_head _ 0 _ (show (0 : Int) ≤ st.sp - 1 from by omega)
      (show st.sp - 1 < 64 from by omega) hB1
  have hp2 := pop_sentinel _ 0 hr1 rfl
  have hp0 := pop0_zero _ 0 hr1 rfl
  refine ⟨⟨st.mem, st.sp - 1 - 1⟩, ?_,
    stackBytes_tail _ 0 _ hsp2 hB1,
    show (0 : Int) ≤ st.sp - 1 - 1 from by omega,
    show st.sp - 1 - 1 < 64 from by omega, rfl⟩
  simp only [handle_close_bracket, hp1, hp2, hp0,
    print_symbol_op x hx1 hx2]
  rfl

/-- handle_close_bracket over a full scope: both operators are popped and
emitted in order, then pop0 removes the sentinel. -/
theorem handle_close_scTwo (m a : Nat) (st : Stack) (rest : List Scope)
    (h0 : 0 ≤ st.sp) (h1 : st.sp < 64)
    (hm : isMul m = true) (ha : isAdd a = true) (hrest : rest ≠ [])
    (hB : stackBytes st = encScopes (Scope.scTwo m a :: rest)) :
    ∃ st', handle_close_bracket st = some ([m, a], st') ∧
      stackBytes st' = encScopes rest ∧
      0 ≤ st'.sp ∧ st'.sp < 64 ∧ st'.mem 0 = st.mem 0 := by
  obtain ⟨hm1, hm2⟩ := op_byte_facts m (by rw [hm, Bool.or_true])
  obtain ⟨ha1, ha2⟩ := op_byte_facts a (by rw [ha, Bool.true_or])
  have hBn : stackBytes st = m :: a :: 0 :: encScopes rest := by
    simpa [encScopes, encScope] using hB
  have hsp : 1 ≤ st.sp := one_le_sp_of_bytes st m _ hBn (by simp)
  have hr : readMem st = some m := readMem_head st m _ h0 h1 hBn
  have hp1 := pop_op st m hr (by omega) hm2
  have hB1 : stackBytes ⟨st.mem, st.sp - 1⟩ = a :: 0 :: encScopes rest :=
    stackBytes_tail st m _ hsp hBn
  have hsp2 : (1 : Int) ≤ st.sp - 1 :=
    one_le_sp_of_bytes _ a _ hB1 (by simp)
  have hr1 : readMem ⟨st.mem, st.sp - 1⟩ = some a :=
    readMem_head _ a _ (show (0 : Int) ≤ st.sp - 1 from by omega)
      (show st.sp - 1 < 64 from by omega) hB1
  have hp2 := pop_op _ a hr1 (by omega) ha2
  have hB2 : stackBytes ⟨st.mem, st.sp - 1 - 1⟩ = 0 :: encScopes rest :=
    stackBytes_tail _ a _ hsp2 hB1
  have hsp3 : (1 : Int) ≤ st.sp - 1 - 1 :=
    one_le_sp_of_bytes _ 0 _ hB2 (encScopes_ne_nil rest hrest)
  have hr2 : readMem ⟨st.mem, st.sp - 1 - 1⟩ = some 0 :=
    readMem_head _ 0 _ (show (0 : Int) ≤ st.sp - 1 - 1 from by omega)
      (show st.sp - 1 - 1 < 64 from by omega) hB2
  have hp0 := pop0_zero _ 0 hr2 rfl
  refine ⟨⟨st.mem, st.sp - 1 - 1 - 1⟩, ?_,
    stackBytes_tail _ 0 _ hsp3 hB2,
    show (0 : Int) ≤ st.sp - 1 - 1 - 1 from by omega,
    show st.sp - 1 - 1 - 1 < 64 from by omega, rfl⟩
  simp only [handle_close_bracket, hp1, hp2, hp0,
    print_symbol_op m hm1 hm2, print_symbol_op a ha1 ha2]
  rfl

/-- C9: for every possible input byte the arithmetic dispatch index of
convert equals the index of the single category the classifier contract
assigns: EndOfInput for 0, Operand for a-z, AdditiveOp for + and -,
MultiplicativeOp for * and /, OpenBracket for (, CloseBracket for ), and
Invalid (handle_error, index 0) for everything else. -/
theorem call_index_classifies :
    ∀ c : Fin 256, call_index c.val = classifier_spec c.val :=
  call_index_byte

/-- C3: reading an additive operator pops and emits the up-to-two pending
entries of the current scope and then pushes the new operator.  First
conjunct: a pop that meets the sentinel (or the bottom marker) removes
nothing and returns the unprintable 0, so surplus flush pops are harmless
no-ops that leave the sentinel in place.  Second conjunct: over a scope
with zero, one or two pending operators, handle_add_sub emits exactly
those operators (encScope s) and leaves the scope holding just the new
additive operator, the scopes below untouched.  (The side condition only
excludes the unchecked-overflow corner sp = 63 with an empty scope, which
claim C7 covers.) -/
theorem add_sub_flushes_scope :
    (∀ (st : Stack) (c : Nat), readMem st = some c → c = 0 →
      pop st = some (0, st)) ∧
    (∀ (c : Nat) (st : Stack) (s : Scope) (rest : List Scope),
      0 ≤ st.sp → st.sp < 64 → stackBytes st = encScopes (s :: rest) →
      scWF s = true → (s ≠ Scope.scNone ∨ st.sp < 63) →
      (handle_add_sub c st).map (fun r => (r.1, stackBytes r.2))
        = some (encScope s, encScopes (Scope.scOne c :: rest))) := by
  constructor
  · intro st c hr hc
    exact pop_sentinel st c hr hc
  · intro c st s rest h0 h1 hB hs hside
    cases s with
    | scNone =>
      have h63 : st.sp < 63 := by
        rcases hside with h' | h'
        · exact absurd rfl h'
        · exact h'
      obtain ⟨st', heq, hby, -, -, -⟩ :=
        (handle_add_sub_scNone c st rest h0 h1 hB).2 h63
      rw [heq, ← hby]
      rfl
    | scOne x =>
      obtain ⟨st', heq, hby, -, -, -⟩ :=
        handle_add_sub_scOne c x st rest h0 h1 hs hB
      rw [heq, ← hby]
      rfl
    | scTwo m a =>
      obtain ⟨hm, ha⟩ : isMul m = true ∧ isAdd a = true := by
        simpa [scWF] using hs
      obtain ⟨st', heq, hby, -, -, -⟩ :=
        handle_add_sub_scTwo c m a st rest h0 h1 hm ha hB
      rw [heq, ← hby]
      rfl

theorem add_sub_flushes_scope_witness :
    pop stack_init = some (0, stack_init) ∧
    (handle_add_sub 43 stack_init).map (fun r => (r.1, stackBytes r.2))
      = some (encScope Scope.scNone, encScopes [Scope.scOne 43]) := by
  constructor
  · exact add_sub_flushes_scope.1 stack_init 0 (by decide) rfl
  · exact add_sub_flushes_scope.2 43 stack_init Scope.scNone []
      (by decide) (by decide) (by decide) (by decide) (Or.inr (by decide))

/-- C4: reading a multiplicative operator pops and emits the single
top-of-stack entry only when that entry is itself * or / (first
conjunct); when the top is an additive operator, a sentinel or the bottom
marker, pop_mul_div leaves the stack completely unchanged and returns the
unprintable 0 (second conjunct); in every case the new operator is then
pushed (remaining conjuncts, by the shape of the current scope; the
sp < 63 side conditions only exclude the unchecked-overflow corner that
claim C7 covers). -/
theorem mul_div_flushes_single :
    (∀ (st : Stack) (v : Nat), readMem st = some v → isMul v = true →
      pop_mul_div st = some (v, ⟨st.mem, st.sp - 1⟩)) ∧
    (∀ (st : Stack) (v : Nat), readMem st = some v → v < 128 →
      isMul v = false → pop_mul_div st = some (0, st)) ∧
    (∀ (c : Nat) (st : Stack) (rest : List Scope),
      0 ≤ st.sp → st.sp < 64 →
      stackBytes st = encScopes (Scope.scNone :: rest) → st.sp < 63 →
      (handle_mul_div c st).map (fun r => (r.1, stackBytes r.2))
        = some ([], encScopes (Scope.scOne c :: rest))) ∧
    (∀ (c x : Nat) (st : Stack) (rest : List Scope),
      0 ≤ st.sp → st.sp < 64 → isAdd x = true →
      stackBytes st = encScopes (Scope.scOne x :: rest) → st.sp < 63 →
      (handle_mul_div c st).map (fun r => (r.1, stackBytes r.2))
        = some ([], encScopes (Scope.scTwo c x :: rest))) ∧
    (∀ (c x : Nat) (st : Stack) (rest : List Scope),
      0 ≤ st.sp → st.sp < 64 → isMul x = true →
      stackBytes st = encScopes (Scope.scOne x :: rest) →
      (handle_mul_div c st).map (fun r => (r.1, stackBytes r.2))
        = some ([x], encScopes (Scope.scOne c :: rest))) ∧
    (∀ (c m a : Nat) (st : Stack) (rest : List Scope),
      0 ≤ st.sp → st.sp < 64 → isMul m = true → isAdd a = true →
      stackBytes st = encScopes (Scope.scTwo m a :: rest) →
      (handle_mul_div c st).map (fun r => (r.1, stackBytes r.2))
        = some ([m], encScopes (Scope.scTwo c a :: rest))) := by
  refine ⟨?_, ?_, ?_, ?_, ?_, ?_⟩
  · intro st v hr hv
    exact pop_mul_div_hit st v hr hv
  · intro st v hr hlt hv
    have h42 : v ≠ 42 := by
      intro h
      subst h
      simp [isMul] at hv
    have h47 : v ≠ 47 := by
      intro h
      subst h
      simp [isMul] at hv
    exact pop_mul_div_miss st v hr h42 h47 hlt
  · intro c st rest h0 h1 hB h63
    obtain ⟨st', heq, hby, -, -, -⟩ :=
      (handle_mul_div_scNone c st rest h0 h1 hB).2 h63
    rw [heq, ← hby]
    rfl
  · intro c x st rest h0 h1 hx hB h63
    obtain ⟨st', heq, hby, -, -, -⟩ :=
      (handle_mul_div_scOne_add c x st rest h0 h1 hx hB).2 h63
    rw [heq, ← hby]
    rfl
  · intro c x st rest h0 h1 hx hB
    obtain ⟨st', heq, hby, -, -, -⟩ :=
      handle_mul_div_scOne_mul c x st rest h0 h1 hx hB
    rw [heq, ← hby]
    rfl
  · intro c m a st rest h0 h1 hm ha hB
    obtain ⟨st', heq, hby, -, -, -⟩ :=
      handle_mul_div_scTwo c m a st rest h0 h1 hm ha hB
    rw [heq, ← hby]
    rfl

theorem mul_div_flushes_single_witness :
    pop_mul_div ⟨fun j => if j = 1 then 42 else 0, 1⟩
      = some (42, ⟨fun j => if j = 1 then 42 else 0, 0⟩) ∧
    pop_mul_div ⟨fun j => if j = 1 then 43 else 0, 1⟩
      = some (0, ⟨fun j => if j = 1 then 43 else 0, 1⟩) ∧
    (handle_mul_div 42 ⟨fun j => if j = 1 then 43 else 0, 1⟩).map
        (fun r => (r.1, stackBytes r.2))
      = some ([], encScopes [Scope.scTwo 42 43]) := by
  refine ⟨?_, ?_, ?_⟩
  · exact mul_div_flushes_single.1 ⟨fun j => if j = 1 then 42 else 0, 1⟩ 42
      (by decide) (by decide)
  · exact mul_div_flushes_single.2.1 ⟨fun j => if j = 1 then 43 else 0, 1⟩ 43
      (by decide) (by decide) (by decide)
  · exact mul_div_flushes_single.2.2.2.1 42 43
      ⟨fun j => if j = 1 then 43 else 0, 1⟩ []
      (by decide) (by decide) (by decide) (by decide) (by decide)

/-- The dispatch index as a function of the byte, for byte values. -/
theorem call_index_of (c : Nat) (h : c < 256) :
    call_index c = classifier_spec c :=
  call_index_byte ⟨c, h⟩

theorem call_index_operand (c : Nat) (h1 : 97 ≤ c) (h2 : c ≤ 122) :
    call_index c = 2 := by
  rw [call_index_of c (by omega)]
  unfold classifier_spec
  rw [if_neg (by omega), if_pos ⟨h1, h2⟩]
  rfl

/-- Case split on a byte of the input alphabet. -/
theorem validByte_cases (c : Nat) (h : validByte c = true) :
    (97 ≤ c ∧ c ≤ 122) ∨ c = 43 ∨ c = 45 ∨ c = 42 ∨ c = 47 ∨ c = 40 ∨ c = 41 := by
  simp [validByte, isOperandB, isAdd, isMul] at h
  tauto

/-- Arm-by-arm unfolding of convert once the dispatch index is known. -/
theorem convert_err (c : Nat) (rest : List Nat) (st : Stack)
    (h : call_index c = 0) :
    convert (c :: rest) st = CResult.err [] := by
  simp only [convert, h]

theorem convert_end_arm (c : Nat) (rest : List Nat) (st : Stack)
    (h : call_index c = 1) :
    convert (c :: rest) st =
      (match handle_end st with
       | some (out, st1) => CResult.ok out st1
       | none => CResult.ub []) := by
  simp only [convert, h]

theorem convert_operand (c : Nat) (rest : List Nat) (st : Stack)
    (h : call_index c = 2) :
    convert (c :: rest) st = (convert rest st).withOut [c] := by
  simp only [convert, h]

theorem convert_addsub (c : Nat) (rest : List Nat) (st : Stack)
    (h : call_index c = 3) :
    convert (c :: rest) st =
      (match handle_add_sub c st with
       | some (out, st1) => (convert rest st1).withOut out
       | none => CResult.ub []) := by
  simp only [convert, h]

theorem convert_muldiv (c : Nat) (rest : List Nat) (st : Stack)
    (h : call_index c = 4) :
    convert (c :: rest) st =
      (match handle_mul_div c st with
       | some (out, st1) => (convert rest st1).withOut out
       | none => CResult.ub []) := by
  simp only [convert, h]

theorem convert_open (c : Nat) (rest : List Nat) (st : Stack)
    (h : call_index c = 5) :
    convert (c :: rest) st =
      (match handle_open_bracket st with
       | some (out, st1) => (convert rest st1).withOut out
       | none => CResult.ub []) := by
  simp only [convert, h]

theorem convert_close (c : Nat) (rest : List Nat) (st : Stack)
    (h : call_index c = 6) :
    convert (c :: rest) st =
      (match handle_close_bracket st with
       | some (out, st1) => (convert rest st1).withOut out
       | none => CResult.ub []) := by
  simp only [convert, h]

/-- Arm-by-arm unfolding of convert_trace. -/
theorem convert_trace_operand (c : Nat) (rest : List Nat) (st : Stack)
    (h : call_index c = 2) :
    convert_trace (c :: rest) st = st :: convert_trace rest st := by
  simp only [convert_trace, h]

theorem convert_trace_addsub (c : Nat) (rest : List Nat) (st : Stack)
    (h : call_index c = 3) :
    convert_trace (c :: rest) st =
      st :: (match handle_add_sub c st with
             | some (_, st1) => convert_trace rest st1
             | none => []) := by
  simp only [convert_trace, h]

theorem convert_trace_muldiv (c : Nat) (rest : List Nat) (st : Stack)
    (h : call_index c = 4) :
    convert_trace (c :: rest) st =
      st :: (match handle_mul_div c st with
             | some (_, st1) => convert_trace rest st1
             | none => []) := by
  simp only [convert_trace, h]

theorem convert_trace_open (c : Nat) (rest : List Nat) (st : Stack)
    (h : call_index c = 5) :
    convert_trace (c :: rest) st =
      st :: (match handle_open_bracket st with
             | some (_, st1) => convert_trace rest st1
             | none => []) := by
  simp only [convert_trace, h]

theorem convert_trace_close (c : Nat) (rest : List Nat) (st : Stack)
    (h : call_index c = 6) :
    convert_trace (c :: rest) st =
      st :: (match handle_close_bracket st with
             | some (_, st1) => convert_trace rest st1
             | none => []) := by
  simp only [convert_trace, h]

/-- The scope-shape scanner accepts every well-formed scope stack. -/
theorem scopesOK_enc : ∀ (scopes : List Scope),
    (∀ s ∈ scopes, scWF s = true) →
    scopesOKAux 0 (encScopes scopes) = true := by
  intro scopes
  induction scopes with
  | nil => intro _; rfl
  | cons s rest ih =>
    intro h
    have hs := h s (List.mem_cons_self s rest)
    have hr := ih (fun x hx => h x (List.mem_cons_of_mem s hx))
    cases s with
    | scNone => simpa [encScopes, encScope, scopesOKAux] using hr
    | scOne x =>
      have h' : isAdd x = true ∨ isMul x = true := by
        cases hA : isAdd x
        · right
          simpa [scWF, hA] using hs
        · left
          rfl
      rcases h' with h' | h'
      · rcases isAdd_cases x h' with rfl | rfl <;>
          simpa [encScopes, encScope, scopesOKAux, isAdd, isMul] using hr
      · rcases isMul_cases x h' with rfl | rfl <;>
          simpa [encScopes, encScope, scopesOKAux, isAdd, isMul] using hr
    | scTwo m a =>
      obtain ⟨hm, ha⟩ : isMul m = true ∧ isAdd a = true := by
        simpa [scWF] using hs
      rcases isMul_cases m hm with rfl | rfl <;>
        rcases isAdd_cases a ha with rfl | rfl <;>
          simpa [encScopes, encScope, scopesOKAux, isAdd, isMul] using hr

theorem call_index_add (c : Nat) (h : isAdd c = true) : call_index c = 3 := by
  rcases isAdd_cases c h with rfl | rfl <;> decide

theorem call_index_mul (c : Nat) (h : isMul c = true) : call_index c = 4 := by
  rcases isMul_cases c h with rfl | rfl <;> decide

/-- Case split on a byte of the input alphabet, keeping the operator
classes abstract. -/
theorem validByte_kinds (c : Nat) (h : validByte c = true) :
    (97 ≤ c ∧ c ≤ 122) ∨ isAdd c = true ∨ isMul c = true ∨ c = 40 ∨ c = 41 := by
  simp [validByte, isOperandB] at h
  tauto

/-- A single pending operator is additive or multiplicative. -/
theorem scOne_kinds (x : Nat) (h : scWF (Scope.scOne x) = true) :
    isAdd x = true ∨ isMul x = true := by
  cases hA : isAdd x
  · right
    simpa [scWF, hA] using h
  · left
    rfl

theorem wf_cons (snew : Scope) (srest : List Scope) (h1 : scWF snew = true)
    (h2 : ∀ x ∈ srest, scWF x = true) :
    ∀ x ∈ snew :: srest, scWF x = true := by
  intro x hx
  rcases List.mem_cons.mp hx with rfl | hx2
  · exact h1
  · exact h2 x hx2

/-- The stack-shape invariant holds at every state the conversion walk
visits, for any input over the alphabet with balanced brackets: the
induction carries the scope decomposition of the stack and the bracket
balance of the unread suffix. -/
theorem trace_inv_aux (bs : List Nat) :
    ∀ (st : Stack) (scopes : List Scope),
      (∀ b ∈ bs, validByte b = true) →
      balAux bs (scopes.length - 1) = true →
      stackBytes st = encScopes scopes →
      (∀ s ∈ scopes, scWF s = true) →
      scopes ≠ [] →
      0 ≤ st.sp → st.sp < 64 → st.mem 0 = 0 →
      ∀ t ∈ convert_trace bs st, ScopeInv t := by
  induction bs with
  | nil =>
    intro st scopes hv hbal hB hwf hne h0 h1 hm0 t ht
    have hts : t = st := by simpa [convert_trace] using ht
    subst hts
    exact ⟨h0, h1, hm0, by rw [hB]; exact scopesOK_enc scopes hwf⟩
  | cons c rest ih =>
    intro st scopes hv hbal hB hwf hne h0 h1 hm0 t ht
    have hstinv : ScopeInv st :=
      ⟨h0, h1, hm0, by rw [hB]; exact scopesOK_enc scopes hwf⟩
    have hvc : validByte c = true := hv c (List.mem_cons_self c rest)
    have hvr : ∀ b ∈ rest, validByte b = true :=
      fun b hb => hv b (List.mem_cons_of_mem c hb)
    obtain ⟨s, srest, rfl⟩ : ∃ s srest, scopes = s :: srest := by
      cases scopes with
      | nil => exact absurd rfl hne
      | cons a b => exact ⟨a, b, rfl⟩
    have hwfs : scWF s = true := hwf s (List.mem_cons_self s srest)
    have hwfr : ∀ x ∈ srest, scWF x = true :=
      fun x hx => hwf x (List.mem_cons_of_mem s hx)
    rcases validByte_kinds c hvc with hop | hadd | hmul | hc | hc
    · -- operand: the stack is untouched
      rw [convert_trace_operand c rest st
        (call_index_operand c hop.1 hop.2)] at ht
      have hb40 : (c == 40) = false := by
        simp
        omega
      have hb41 : (c == 41) = false := by
        simp
        omega
      have hbal2 : balAux rest ((s :: srest).length - 1) = true := by
        simpa [balAux, hb40, hb41] using hbal
      rcases List.mem_cons.mp ht with rfl | ht2
      · exact hstinv
      · exact ih st (s :: srest) hvr hbal2 hB hwf hne h0 h1 hm0 t ht2
    · -- additive operator
      rw [convert_trace_addsub c rest st (call_index_add c hadd)] at ht
      have hb40 : (c == 40) = false := by
        rcases isAdd_cases c hadd with rfl | rfl <;> rfl
      have hb41 : (c == 41) = false := by
        rcases isAdd_cases c hadd with rfl | rfl <;> rfl
      have hbal2 : balAux rest ((s :: srest).length - 1) = true := by
        simpa [balAux, hb40, hb41] using hbal
      have hnew : scWF (Scope.scOne c) = true := by
        simp [scWF, hadd]
      cases s with
      | scNone =>
        by_cases hsp : st.sp < 63
        · obtain ⟨st', heq, hby, h0', h1', hm0'⟩ :=
            (handle_add_sub_scNone c st srest h0 h1 hB).2 hsp
          rw [heq] at ht
          dsimp only at ht
          rcases List.mem_cons.mp ht with rfl | ht2
          · exact hstinv
          · exact ih st' (Scope.scOne c :: srest) hvr (by simpa using hbal2)
              hby (wf_cons _ _ hnew hwfr) (List.cons_ne_nil _ _) h0' h1'
              (by rw [hm0']; exact hm0) t ht2
        · have heq := (handle_add_sub_scNone c st srest h0 h1 hB).1 (by omega)
          rw [heq] at ht
          dsimp only at ht
          rcases List.mem_cons.mp ht with rfl | ht2
          · exact hstinv
          · exact absurd ht2 (List.not_mem_nil t)
      | scOne x =>
        obtain ⟨st', heq, hby, h0', h1', hm0'⟩ :=
          handle_add_sub_scOne c x st srest h0 h1 hwfs hB
        rw [heq] at ht
        dsimp only at ht
        rcases List.mem_cons.mp ht with rfl | ht2
        · exact hstinv
        · exact ih st' (Scope.scOne c :: srest) hvr (by simpa using hbal2)
            hby (wf_cons _ _ hnew hwfr) (List.cons_ne_nil _ _) h0' h1'
            (by rw [hm0']; exact hm0) t ht2
      | scTwo m a =>
        obtain ⟨hm, ha⟩ : isMul m = true ∧ isAdd a = true := by
          simpa [scWF] using hwfs
        obtain ⟨st', heq, hby, h0', h1', hm0'⟩ :=
          handle_add_sub_scTwo c m a st srest h0 h1 hm ha hB
        rw [heq] at ht
        dsimp only at ht
        rcases List.mem_cons.mp ht with rfl | ht2
        · exact hstinv
        · exact ih st' (Scope.scOne c :: srest) hvr (by simpa using hbal2)
            hby (wf_cons _ _ hnew hwfr) (List.cons_ne_nil _ _) h0' h1'
            (by rw [hm0']; exact hm0) t ht2
    · -- multiplicative operator
      rw [convert_trace_muldiv c rest st (call_index_mul c hmul)] at ht
      have hb40 : (c == 40) = false := by
        rcases isMul_cases c hmul with rfl | rfl <;> rfl
      have hb41 : (c == 41) = false := by
        rcases isMul_cases c hmul with rfl | rfl <;> rfl
      have hbal2 : balAux rest ((s :: srest).length - 1) = true := by
        simpa [balAux, hb40, hb41] using hbal
      have hnew1 : scWF (Scope.scOne c) = true := by
        simp [scWF, hmul]
      cases s with
      | scNone =>
        by_cases hsp : st.sp < 63
        · obtain ⟨st', heq, hby, h0', h1', hm0'⟩ :=
            (handle_mul_div_scNone c st srest h0 h1 hB).2 hsp
          rw [heq] at ht
          dsimp only at ht
          rcases List.mem_cons.mp ht with rfl | ht2
          · exact hstinv
          · exact ih st' (Scope.scOne c :: srest) hvr (by simpa using hbal2)
              hby (wf_cons _ _ hnew1 hwfr) (List.cons_ne_nil _ _) h0' h1'
              (by rw [hm0']; exact hm0) t ht2
        · have heq := (handle_mul_div_scNone c st srest h0 h1 hB).1 (by omega)
          rw [heq] at ht
          dsimp only at ht
          rcases List.mem_cons.mp ht with rfl | ht2
          · exact hstinv
          · exact absurd ht2 (List.not_mem_nil t)
      | scOne x =>
        rcases scOne_kinds x hwfs with hxa | hxm
        · -- additive below: the new operator stacks above it
          have hnew2 : scWF (Scope.scTwo c x) = true := by
            simp [scWF, hmul, hxa]
          by_cases hsp : st.sp < 63
          · obtain ⟨st', heq, hby, h0', h1', hm0'⟩ :=
              (handle_mul_div_scOne_add c x st srest h0 h1 hxa hB).2 hsp
            rw [heq] at ht
            dsimp only at ht
            rcases List.mem_cons.mp ht with rfl | ht2
            · exact hstinv
            · exact ih st' (Scope.scTwo c x :: srest) hvr (by simpa using hbal2)
                hby (wf_cons _ _ hnew2 hwfr) (List.cons_ne_nil _ _) h0' h1'
                (by rw [hm0']; exact hm0) t ht2
          · have heq :=
              (handle_mul_div_scOne_add c x st srest h0 h1 hxa hB).1 (by omega)
            rw [heq] at ht
            dsimp only at ht
            rcases List.mem_cons.mp ht with rfl | ht2
            · exact hstinv
            · exact absurd ht2 (List.not_mem_nil t)
        · obtain ⟨st', heq, hby, h0', h1', hm0'⟩ :=
            handle_mul_div_scOne_mul c x st srest h0 h1 hxm hB
          rw [heq] at ht
          dsimp only at ht
          rcases List.mem_cons.mp ht with rfl | ht2
          · exact hstinv
          · exact ih st' (Scope.scOne c :: srest) hvr (by simpa using hbal2)
              hby (wf_cons _ _ hnew1 hwfr) (List.cons_ne_nil _ _) h0' h1'
              (by rw [hm0']; exact hm0) t ht2
      | scTwo m a =>
        obtain ⟨hm, ha⟩ : isMul m = true ∧ isAdd a = true := by
          simpa [scWF] using hwfs
        have hnew2 : scWF (Scope.scTwo c a) = true := by
          simp [scWF, hmul, ha]
        obtain ⟨st', heq, hby, h0', h1', hm0'⟩ :=
          handle_mul_div_scTwo c m a st srest h0 h1 hm ha hB
        rw [heq] at ht
        dsimp only at ht
        rcases List.mem_cons.mp ht with rfl | ht2
        · exact hstinv
        · exact ih st' (Scope.scTwo c a :: srest) hvr (by simpa using hbal2)
            hby (wf_cons _ _ hnew2 hwfr) (List.cons_ne_nil _ _) h0' h1'
            (by rw [hm0']; exact hm0) t ht2
    · -- open bracket: a fresh scope
      subst hc
      rw [convert_trace_open 40 rest st (by decide)] at ht
      have hbal2 :
          balAux rest ((Scope.scNone :: s :: srest).length - 1) = true := by
        simpa [balAux] using hbal
      by_cases hsp : st.sp < 63
      · obtain ⟨st', heq, hby, h0', h1', hm0'⟩ :=
          (handle_open_spec st (s :: srest) h0 h1 hB).2 hsp
        rw [heq] at ht
        dsimp only at ht
        rcases List.mem_cons.mp ht with rfl | ht2
        · exact hstinv
        · exact ih st' (Scope.scNone :: s :: srest) hvr hbal2 hby
            (wf_cons _ _ rfl hwf) (List.cons_ne_nil _ _) h0' h1'
            (by rw [hm0']; exact hm0) t ht2
      · have heq := (handle_open_spec st (s :: srest) h0 h1 hB).1 (by omega)
        rw [heq] at ht
        dsimp only at ht
        rcases List.mem_cons.mp ht with rfl | ht2
        · exact hstinv
        · exact absurd ht2 (List.not_mem_nil t)
    · -- close bracket: the enclosing scope is re-exposed
      subst hc
      rw [convert_trace_close 41 rest st (by decide)] at ht
      obtain ⟨hne0, hbal2⟩ :
          srest.length ≠ 0 ∧ balAux rest (srest.length - 1) = true := by
        simpa [balAux] using hbal
      have hsrne : srest ≠ [] := by
        intro hemp
        rw [hemp] at hne0
        exact hne0 rfl
      cases s with
      | scNone =>
        obtain ⟨st', heq, hby, h0', h1', hm0'⟩ :=
          handle_close_scNone st srest h0 h1 hsrne hB
        rw [heq] at ht
        dsimp only at ht
        rcases List.mem_cons.mp ht with rfl | ht2
        · exact hstinv
        · exact ih st' srest hvr hbal2 hby hwfr hsrne h0' h1'
            (by rw [hm0']; exact hm0) t ht2
      | scOne x =>
        obtain ⟨st', heq, hby, h0', h1', hm0'⟩ :=
          handle_close_scOne x st srest h0 h1 hwfs hsrne hB
        rw [heq] at ht
        dsimp only at ht
        rcases List.mem_cons.mp ht with rfl | ht2
        · exact hstinv
        · exact ih st' srest hvr hbal2 hby hwfr hsrne h0' h1'
            (by rw [hm0']; exact hm0) t ht2
      | scTwo m a =>
        obtain ⟨hm, ha⟩ : isMul m = true ∧ isAdd a = true := by
          simpa [scWF] using hwfs
        obtain ⟨st', heq, hby, h0', h1', hm0'⟩ :=
          handle_close_scTwo m a st srest h0 h1 hm ha hsrne hB
        rw [heq] at ht
        dsimp only at ht
        rcases List.mem_cons.mp ht with rfl | ht2
        · exact hstinv
        · exact ih st' srest hvr hbal2 hby hwfr hsrne h0' h1'
            (by rw [hm0']; exact hm0) t ht2

/-- C5: for every input over the alphabet with balanced brackets, at
every step of the conversion the operator stack is inside its block with
the bottom marker intact, and within each bracket scope (the entries
above the nearest sentinel, or above the bottom for the outermost scope)
there are at most two pending operators; when there are two, the upper is
multiplicative and the lower additive (the scopesOKAux scanner). -/
theorem convert_scope_invariant (bs : List Nat)
    (hv : ∀ b ∈ bs, validByte b = true) (hbal : balancedB bs = true) :
    ∀ t ∈ convert_trace bs stack_init, ScopeInv t :=
  trace_inv_aux bs stack_init [Scope.scNone] hv
    (by simpa [balancedB] using hbal) rfl
    (by
      intro s hs
      rcases List.mem_singleton.mp hs with rfl
      rfl)
    (List.cons_ne_nil _ _) (by decide) (by decide) rfl

theorem convert_scope_invariant_witness : ScopeInv stack_init :=
  convert_scope_invariant (strBytes "a+(b*c+d)*e") (by decide) (by decide)
    stack_init (List.mem_cons_self _ _)

/-- The initial stack holds only bottom-marker bytes. -/
theorem memOK_init : MemOK stack_init := fun _ _ _ => rfl

/-- A byte read from a well-bounded stack block is a stack byte. -/
theorem readMem_byteOK (st : Stack) (c : Nat) (hm : MemOK st)
    (h : readMem st = some c) : stackByteOK c = true := by
  unfold readMem at h
  by_cases hcond : 0 ≤ st.sp ∧ st.sp < MAX_STACK_DEPTH
  · rw [if_pos hcond] at h
    injection h with h2
    rw [← h2]
    exact hm st.sp hcond.1 hcond.2
  · rw [if_neg hcond] at h
    exact Option.noConfusion h

/-- A successful pop returns a read byte and leaves the block contents
unchanged. -/
theorem pop_cases (st : Stack) (c : Nat) (st' : Stack)
    (h : pop st = some (c, st')) :
    readMem st = some c ∧ st'.mem = st.mem := by
  unfold pop at h
  cases hr : readMem st with
  | none =>
    rw [hr] at h
    exact Option.noConfusion h
  | some v =>
    rw [hr] at h
    dsimp only at h
    injection h with h2
    injection h2 with h3 h4
    constructor
    · rw [h3]
    · rw [← h4]

/-- A successful pop_mul_div returns a stack byte (the read byte or the
suppressed 0) and leaves the block contents unchanged. -/
theorem pop_mul_div_cases (st : Stack) (c : Nat) (st' : Stack)
    (hm : MemOK st) (h : pop_mul_div st = some (c, st')) :
    stackByteOK c = true ∧ st'.mem = st.mem := by
  unfold pop_mul_div at h
  cases hr : readMem st with
  | none =>
    rw [hr] at h
    exact Option.noConfusion h
  | some v =>
    rw [hr] at h
    dsimp only at h
    injection h with h2
    injection h2 with h3 h4
    have hv : stackByteOK v = true := readMem_byteOK st v hm hr
    have hv5 : v = 0 ∨ v = 43 ∨ v = 45 ∨ v = 42 ∨ v = 47 := by
      simp [stackByteOK, isAdd, isMul] at hv
      tauto
    constructor
    · rw [← h3]
      rcases hv5 with rfl | rfl | rfl | rfl | rfl <;> decide
    · rw [← h4]

/-- A successful pop0 leaves the block contents unchanged. -/
theorem pop0_cases (st : Stack) (st' : Stack) (h : pop0 st = some st') :
    st'.mem = st.mem := by
  unfold pop0 at h
  cases hr : readMem st with
  | none =>
    rw [hr] at h
    exact Option.noConfusion h
  | some v =>
    rw [hr] at h
    dsimp only at h
    injection h with h2
    rw [← h2]

/-- A successful push of a stack byte preserves the block invariant. -/
theorem push_cases (st : Stack) (c : Nat) (st' : Stack) (hm : MemOK st)
    (hc : stackByteOK c = true) (h : push c st = some st') : MemOK st' := by
  unfold push writeMem at h
  split at h
  · injection h with h2
    intro j hj1 hj2
    rw [← h2]
    dsimp only
    by_cases hjc : j = st.sp + 1
    · rw [if_pos hjc]
      exact hc
    · rw [if_neg hjc]
      exact hm j hj1 hj2
  · exact Option.noConfusion h

/-- Guarded printing of a stack byte contributes no operand characters. -/
theorem print_filter (c : Nat) (hc : stackByteOK c = true) :
    (print_symbol c).filter isOperandB = [] := by
  have hv5 : c = 0 ∨ c = 43 ∨ c = 45 ∨ c = 42 ∨ c = 47 := by
    simp [stackByteOK, isAdd, isMul] at hc
    tauto
  rcases hv5 with rfl | rfl | rfl | rfl | rfl <;> decide

/-- handle_add_sub emits no operands and preserves the block invariant
when the pushed byte is a stack byte. -/
theorem handle_add_sub_memOK (c : Nat) (st : Stack) (es : List Nat)
    (st' : Stack) (hm : MemOK st) (hc : stackByteOK c = true)
    (h : handle_add_sub c st = some (es, st')) :
    es.filter isOperandB = [] ∧ MemOK st' := by
  unfold handle_add_sub at h
  cases h1 : pop st with
  | none =>
    rw [h1] at h
    exact Option.noConfusion h
  | some p1 =>
    obtain ⟨c1, st1⟩ := p1
    rw [h1] at h
    dsimp only at h
    cases h2 : pop st1 with
    | none =>
      rw [h2] at h
      exact Option.noConfusion h
    | some p2 =>
      obtain ⟨c2, st2⟩ := p2
      rw [h2] at h
      dsimp only at h
      cases h3 : push c st2 with
      | none =>
        rw [h3] at h
        exact Option.noConfusion h
      | some st3 =>
        rw [h3] at h
        dsimp only at h
        injection h with h4
        injection h4 with h5 h6
        obtain ⟨hr1, hmem1⟩ := pop_cases st c1 st1 h1
        have hm1 : MemOK st1 := by
          intro j hj1 hj2
          rw [hmem1]
          exact hm j hj1 hj2
        obtain ⟨hr2, hmem2⟩ := pop_cases st1 c2 st2 h2
        have hm2 : MemOK st2 := by
          intro j hj1 hj2
          rw [hmem2]
          exact hm1 j hj1 hj2
        have hb1 : stackByteOK c1 = true := readMem_byteOK st c1 hm hr1
        have hb2 : stackByteOK c2 = true := readMem_byteOK st1 c2 hm1 hr2
        constructor
        · rw [← h5, List.filter_append, print_filter c1 hb1,
            print_filter c2 hb2]
          rfl
        · rw [← h6]
          exact push_cases st2 c st3 hm2 hc h3

/-- handle_mul_div emits no operands and preserves the block invariant
when the pushed byte is a stack byte. -/
theorem handle_mul_div_memOK (c : Nat) (st : Stack) (es : List Nat)
    (st' : Stack) (hm : MemOK st) (hc : stackByteOK c = true)
    (h : handle_mul_div c st = some (es, st')) :
    es.filter isOperandB = [] ∧ MemOK st' := by
  unfold handle_mul_div at h
  cases h1 : pop_mul_div st with
  | none =>
    rw [h1] at h
    exact Option.noConfusion h
  | some p1 =>
    obtain ⟨c1, st1⟩ := p1
    rw [h1] at h
    dsimp only at h
    cases h2 : push c st1 with
    | none =>
      rw [h2] at h
      exact Option.noConfusion h
    | some st2 =>
      rw [h2] at h
      dsimp only at h
      injection h with h4
      injection h4 with h5 h6
      obtain ⟨hb1, hmem1⟩ := pop_mul_div_cases st c1 st1 hm h1
      have hm1 : MemOK st1 := by
        intro j hj1 hj2
        rw [hmem1]
        exact hm j hj1 hj2
      constructor
      · rw [← h5, print_filter c1 hb1]
      · rw [← h6]
        exact push_cases st1 c st2 hm1 hc h2

/-- handle_open_bracket emits nothing and preserves the block invariant
(the pushed sentinel 0 is a stack byte). -/
theorem handle_open_memOK (st : Stack) (es : List Nat) (st' : Stack)
    (hm : MemOK st) (h : handle_open_bracket st = some (es, st')) :
    es.filter isOperandB = [] ∧ MemOK st' := by
  unfold handle_open_bracket at h
  cases h1 : push 0 st with
  | none =>
    rw [h1] at h
    exact Option.noConfusion h
  | some st1 =>
    rw [h1] at h
    dsimp only at h
    injection h with h4
    injection h4 with h5 h6
    constructor
    · rw [← h5]
      rfl
    · rw [← h6]
      exact push_cases st 0 st1 hm rfl h1

/-- handle_close_bracket emits no operands and preserves the block
invariant. -/
theorem handle_close_memOK (st : Stack) (es : List Nat) (st' : Stack)
    (hm : MemOK st) (h : handle_close_bracket st = some (es, st')) :
    es.filter isOperandB = [] ∧ MemOK st' := by
  unfold handle_close_bracket at h
  cases h1 : pop st with
  | none =>
    rw [h1] at h
    exact Option.noConfusion h
  | some p1 =>
    obtain ⟨c1, st1⟩ := p1
    rw [h1] at h
    dsimp only at h
    cases h2 : pop st1 with
    | none =>
      rw [h2] at h
      exact Option.noConfusion h
    | some p2 =>
      obtain ⟨c2, st2⟩ := p2
      rw [h2] at h
      dsimp only at h
      cases h3 : pop0 st2 with
      | none =>
        rw [h3] at h
        exact Option.noConfusion h
      | some st3 =>
        rw [h3] at h
        dsimp only at h
        injection h with h4
        injection h4 with h5 h6
        obtain ⟨hr1, hmem1⟩ := pop_cases st c1 st1 h1
        have hm1 : MemOK st1 := by
          intro j hj1 hj2
          rw [hmem1]
          exact hm j hj1 hj2
        obtain ⟨hr2, hmem2⟩ := pop_cases st1 c2 st2 h2
        have hm2 : MemOK st2 := by
          intro j hj1 hj2
          rw [hmem2]
          exact hm1 j hj1 hj2
        have hb1 : stackByteOK c1 = true := readMem_byteOK st c1 hm hr1
        have hb2 : stackByteOK c2 = true := readMem_byteOK st1 c2 hm1 hr2
        have hmem3 := pop0_cases st2 st3 h3
        constructor
        · rw [← h5, List.filter_append, print_filter c1 hb1,
            print_filter c2 hb2]
          rfl
        · intro j hj1 hj2
          rw [← h6, hmem3]
          exact hm2 j hj1 hj2

/-- handle_end emits no operands. -/
theorem handle_end_filter (st : Stack) (es : List Nat) (st' : Stack)
    (hm : MemOK st) (h : handle_end st = some (es, st')) :
    es.filter isOperandB = [] := by
  unfold handle_end at h
  cases h1 : pop st with
  | none =>
    rw [h1] at h
    exact Option.noConfusion h
  | some p1 =>
    obtain ⟨c1, st1⟩ := p1
    rw [h1] at h
    dsimp only at h
    cases h2 : pop st1 with
    | none =>
      rw [h2] at h
      exact Option.noConfusion h
    | some p2 =>
      obtain ⟨c2, st2⟩ := p2
      rw [h2] at h
      dsimp only at h
      injection h with h4
      injection h4 with h5 h6
      obtain ⟨hr1, hmem1⟩ := pop_cases st c1 st1 h1
      have hm1 : MemOK st1 := by
        intro j hj1 hj2
        rw [hmem1]
        exact hm j hj1 hj2
      obtain ⟨hr2, hmem2⟩ := pop_cases st1 c2 st2 h2
      have hb1 : stackByteOK c1 = true := readMem_byteOK st c1 hm hr1
      have hb2 : stackByteOK c2 = true := readMem_byteOK st1 c2 hm1 hr2
      rw [← h5, List.filter_append, print_filter c1 hb1,
        print_filter c2 hb2]
      rfl

/-- Operand characters pass straight through to the output: whatever a
successful conversion emits filters to exactly the operand subsequence of
the input, for any starting stack whose cells hold only stack bytes. -/
theorem operand_order_aux (bs : List Nat) :
    ∀ (st : Stack), (∀ b ∈ bs, validByte b = true) → MemOK st →
      ∀ (out : List Nat) (stf : Stack),
        convert bs st = CResult.ok out stf →
        out.filter isOperandB = bs.filter isOperandB := by
  induction bs with
  | nil =>
    intro st hv hm out stf h
    simp only [convert] at h
    cases he : handle_end st with
    | none =>
      rw [he] at h
      exact CResult.noConfusion h
    | some p =>
      obtain ⟨es, st2⟩ := p
      rw [he] at h
      dsimp only at h
      injection h with h1 h2
      rw [← h1, handle_end_filter st es st2 hm he]
      rfl
  | cons c rest ih =>
    intro st hv hm out stf h
    have hvc := hv c (List.mem_cons_self c rest)
    have hvr : ∀ b ∈ rest, validByte b = true :=
      fun b hb => hv b (List.mem_cons_of_mem c hb)
    rcases validByte_kinds c hvc with hop | hadd | hmul | hc | hc
    · -- operand: emitted immediately, stack untouched
      rw [convert_operand c rest st (call_index_operand c hop.1 hop.2)] at h
      have hco : isOperandB c = true := by
        simp [isOperandB]
        omega
      cases hcv : convert rest st with
      | ok out2 st2 =>
        rw [hcv] at h
        dsimp only [CResult.withOut] at h
        injection h with h1 h2
        rw [← h1, List.filter_append, ih st hvr hm out2 st2 hcv]
        simp [List.filter_cons, hco]
      | err o2 =>
        rw [hcv] at h
        exact CResult.noConfusion h
      | ub o2 =>
        rw [hcv] at h
        exact CResult.noConfusion h
    · -- additive operator
      rw [convert_addsub c rest st (call_index_add c hadd)] at h
      have hnc : isOperandB c = false := by
        rcases isAdd_cases c hadd with rfl | rfl <;> rfl
      have hcb : stackByteOK c = true := by
        simp [stackByteOK, hadd]
      cases hh : handle_add_sub c st with
      | none =>
        rw [hh] at h
        exact CResult.noConfusion h
      | some p =>
        obtain ⟨es, st1⟩ := p
        rw [hh] at h
        dsimp only at h
        obtain ⟨hes, hm1⟩ := handle_add_sub_memOK c st es st1 hm hcb hh
        cases hcv : convert rest st1 with
        | ok out2 st2 =>
          rw [hcv] at h
          dsimp only [CResult.withOut] at h
          injection h with h1 h2
          rw [← h1, List.filter_append, hes, ih st1 hvr hm1 out2 st2 hcv]
          simp [List.filter_cons, hnc]
        | err o2 =>
          rw [hcv] at h
          exact CResult.noConfusion h
        | ub o2 =>
          rw [hcv] at h
          exact CResult.noConfusion h
    · -- multiplicative operator
      rw [convert_muldiv c rest st (call_index_mul c hmul)] at h
      have hnc : isOperandB c = false := by
        rcases isMul_cases c hmul with rfl | rfl <;> rfl
      have hcb : stackByteOK c = true := by
        simp [stackByteOK, hmul]
      cases hh : handle_mul_div c st with
      | none =>
        rw [hh] at h
        exact CResult.noConfusion h
      | some p =>
        obtain ⟨es, st1⟩ := p
        rw [hh] at h
        dsimp only at h
        obtain ⟨hes, hm1⟩ := handle_mul_div_memOK c st es st1 hm hcb hh
        cases hcv : convert rest st1 with
        | ok out2 st2 =>
          rw [hcv] at h
          dsimp only [CResult.withOut] at h
          injection h with h1 h2
          rw [← h1, List.filter_append, hes, ih st1 hvr hm1 out2 st2 hcv]
          simp [List.filter_cons, hnc]
        | err o2 =>
          rw [hcv] at h
          exact CResult.noConfusion h
        | ub o2 =>
          rw [hcv] at h
          exact CResult.noConfusion h
    · -- open bracket
      subst hc
      rw [convert_open 40 rest st (by decide)] at h
      cases hh : handle_open_bracket st with
      | none =>
        rw [hh] at h
        exact CResult.noConfusion h
      | some p =>
        obtain ⟨es, st1⟩ := p
        rw [hh] at h
        dsimp only at h
        obtain ⟨hes, hm1⟩ := handle_open_memOK st es st1 hm hh
        cases hcv : convert rest st1 with
        | ok out2 st2 =>
          rw [hcv] at h
          dsimp only [CResult.withOut] at h
          injection h with h1 h2
          rw [← h1, List.filter_append, hes, ih st1 hvr hm1 out2 st2 hcv]
          simp [List.filter_cons, isOperandB]
        | err o2 =>
          rw [hcv] at h
          exact CResult.noConfusion h
        | ub o2 =>
          rw [hcv] at h
          exact CResult.noConfusion h
    · -- close bracket
      subst hc
      rw [convert_close 41 rest st (by decide)] at h
      cases hh : handle_close_bracket st with
      | none =>
        rw [hh] at h
        exact CResult.noConfusion h
      | some p =>
        obtain ⟨es, st1⟩ := p
        rw [hh] at h
        dsimp only at h
        obtain ⟨hes, hm1⟩ := handle_close_memOK st es st1 hm hh
        cases hcv : convert rest st1 with
        | ok out2 st2 =>
          rw [hcv] at h
          dsimp only [CResult.withOut] at h
          injection h with h1 h2
          rw [← h1, List.filter_append, hes, ih st1 hvr hm1 out2 st2 hcv]
          simp [List.filter_cons, isOperandB]
        | err o2 =>
          rw [hcv] at h
          exact CResult.noConfusion h
        | ub o2 =>
          rw [hcv] at h
          exact CResult.noConfusion h

/-- C2 counterexample: deep_input is built only from single-letter
operands, the four operators and balanced round brackets, yet the operand
subsequence of the emitted output is not the operand sequence of the
input: the unchecked stack overflow aborts the conversion before the
operand is ever read, so nothing is emitted. -/
theorem operand_order_fails_on_deep_nesting :
    deep_input.all validByte = true ∧ balancedB deep_input = true ∧
    (outOf (convert deep_input stack_init)).filter isOperandB
      ≠ deep_input.filter isOperandB := by
  refine ⟨rfl, rfl, ?_⟩
  decide

/-- C2 as amended: for every input built from the alphabet whose
conversion runs to completion (the overflow of deep_input being the one
failure mode), the operand characters of the emitted postfix output are
exactly the operand characters of the infix input, in the same
left-to-right order. -/
theorem operand_order_preserved (bs out : List Nat)
    (hv : ∀ b ∈ bs, validByte b = true)
    (h : postfixOut (convert bs stack_init) = some out) :
    out.filter isOperandB = bs.filter isOperandB := by
  cases hcv : convert bs stack_init with
  | ok out2 stf =>
    rw [hcv] at h
    dsimp only [postfixOut] at h
    injection h with h1
    rw [← h1]
    exact operand_order_aux bs stack_init hv memOK_init out2 stf hcv
  | err o =>
    rw [hcv] at h
    exact Option.noConfusion h
  | ub o =>
    rw [hcv] at h
    exact Option.noConfusion h

theorem operand_order_preserved_witness :
    (strBytes "abcd*+e*+fg/+h+").filter isOperandB
      = (strBytes "a+(b+c*d)*e+f/g+h").filter isOperandB :=
  operand_order_preserved (strBytes "a+(b+c*d)*e+f/g+h")
    (strBytes "abcd*+e*+fg/+h+") (by decide) (by decide)

/-- C1: the seven concrete scenarios of the spec, evaluated on the
embedded converter: each infix input emits exactly the given postfix
byte sequence. -/
theorem convert_concrete_scenarios :
    postfixOut (convert (strBytes "a") stack_init) = some (strBytes "a") ∧
    postfixOut (convert (strBytes "a+b") stack_init) = some (strBytes "ab+") ∧
    postfixOut (convert (strBytes "a+b*c") stack_init) = some (strBytes "abc*+") ∧
    postfixOut (convert (strBytes "a+b+c") stack_init) = some (strBytes "ab+c+") ∧
    postfixOut (convert (strBytes "a/b/c") stack_init) = some (strBytes "ab/c/") ∧
    postfixOut (convert (strBytes "(a+b)*c") stack_init) = some (strBytes "ab+c*") ∧
    postfixOut (convert (strBytes "a+(b+c*d)*e+f/g+h") stack_init)
      = some (strBytes "abcd*+e*+fg/+h+") := by
  refine ⟨?_, ?_, ?_, ?_, ?_, ?_, ?_⟩ <;> rfl

/-- C6: what the code actually does on unmatched brackets.  On the
unmatched open bracket of "(a+b" the conversion completes silently
(result ok, output "ab+") with the sentinel still on the stack (final
stack bytes [0, 0], stack pointer at cell 1): no UnbalancedBrackets error
exists in the source.  On the unmatched close bracket of "a+b)" pop0
steps below the stack floor and the conversion dereferences memory below
the malloc block: undefined behavior instead of a reported error. -/
theorem unbalanced_brackets_behavior :
    (postfixOut (convert (strBytes "(a+b") stack_init) = some (strBytes "ab+") ∧
      finalStack (convert (strBytes "(a+b") stack_init) = some [0, 0]) ∧
    (isUB (convert (strBytes "a+b)") stack_init) = true ∧
      outOf (convert (strBytes "a+b)") stack_init) = strBytes "ab+") := by
  refine ⟨⟨?_, ?_⟩, ?_, ?_⟩ <;> rfl

/-- C7: what the code actually does when the pending load exceeds the
64-cell stack: deep_input is a valid, balanced expression, yet the
unchecked push of the 64th sentinel writes past the malloc block
(undefined behavior) and the emitted output is truncated to nothing.  No
StackOverflow detection exists in the source. -/
theorem stack_overflow_behavior :
    deep_input.all validByte = true ∧ balancedB deep_input = true ∧
    isUB (convert deep_input stack_init) = true ∧
    outOf (convert deep_input stack_init) = [] := by
  refine ⟨?_, ?_, ?_, ?_⟩ <;> rfl

/-- C8: whenever the conversion encounters a byte outside the recognized
set (not the 0 terminator, not a-z, not one of the four operators, not a
bracket), in any stack state and with any input remaining, it dispatches
to handle_error and aborts immediately: the result is the generic error
outcome carrying no further postfix output (whatever was already emitted
is prepended unchanged by the enclosing handlers via withOut).  In
particular, for "a$b" only "a" is emitted before the abort. -/
theorem invalid_character_aborts :
    (∀ (d : Nat) (rest : List Nat) (st : Stack),
      d < 256 → validByte d = false → d ≠ 0 →
      convert (d :: rest) st = CResult.err []) ∧
    isErr (convert (strBytes "a$b") stack_init) = true ∧
    outOf (convert (strBytes "a$b") stack_init) = strBytes "a" := by
  refine ⟨?_, rfl, rfl⟩
  intro d rest st h256 hinv h0
  apply convert_err
  rw [call_index_of d h256]
  have h1 : ¬(97 ≤ d ∧ d ≤ 122) ∧ d ≠ 43 ∧ d ≠ 45 ∧ d ≠ 42 ∧ d ≠ 47 ∧
      d ≠ 40 ∧ d ≠ 41 := by
    simp [validByte, isOperandB, isAdd, isMul] at hinv
    omega
  obtain ⟨hA, hB, hC, hD, hE, hF, hG⟩ := h1
  unfold classifier_spec
  rw [if_neg h0, if_neg hA, if_neg (by tauto : ¬(d = 43 ∨ d = 45)),
    if_neg (by tauto : ¬(d = 42 ∨ d = 47)), if_neg hF, if_neg hG]
  rfl

theorem invalid_character_aborts_witness :
    convert (36 :: strBytes "b") stack_init = CResult.err [] :=
  invalid_character_aborts.1 36 (strBytes "b") stack_init
    (by decide) (by decide) (by decide)

end Acyclomatic
